import Mathlib

/-!
Verification development for the NavX grid-pathfinding application.

The embedding covers:
* the client grid model and its editing operations (`handleCellClick`,
  `clearType`, `findCell`) from `src/client/src/App.jsx`;
* the per-run control flow of `simulateAlgo` (precondition check, grid
  rebuild, invocation of the search algorithm, run-record assembly);
* the persistence server routes from `src/server/server.js` (insert,
  select ordered by id descending, truncate);
* the four search algorithms of `utils/pathfinding` are not present in
  the repository snapshot, so they are modelled from the specification
  (sections 4.2-4.6 of the spec) and verified against it.

Grid cells in the JavaScript code are ad hoc lists of string tags drawn
from the fixed set "start", "goal", "obstacle", the four algorithm names
and "robot"; we embed that tag alphabet as the inductive type `Tag` and a
cell as `List Tag`, preserving the list (multi-tag) representation.
-/

namespace NavX

/-- Coordinates are (row, column) pairs, 0-indexed, as in the code where
cells are addressed `grid[row][col]` and serialized as `[r, c]`. -/
abbrev Coord := Nat × Nat

/-- The four algorithm identifiers used by the UI buttons
(`simulateAlgo("BFS", bfs)` etc.). -/
inductive AlgoName
  | BFS
  | DFS
  | DIJKSTRA
  | ASTAR
deriving DecidableEq, Repr

/-- The closed alphabet of strings the client code ever pushes into a grid
cell: the three roles, an algorithm-trace tag (the algorithm's name is
pushed into path cells during animation) and the "robot" marker. -/
inductive Tag
  | start
  | goal
  | obstacle
  | trace (a : AlgoName)
  | robot
deriving DecidableEq, Repr

/-- A grid cell: the JavaScript code stores a list of tags per cell. -/
abbrev Cell := List Tag

/-- The client grid: a list of rows, each a list of cells
(`Array.from({length:10},()=>Array.from({length:10},()=>[]))`). -/
abbrev AppGrid := List (List Cell)

/-- `createEmptyGrid` from App.jsx: a 10 x 10 grid of empty cells. -/
def createEmptyGrid : AppGrid :=
  List.replicate 10 (List.replicate 10 ([] : Cell))

/-- Read the cell at (r, c); out of range reads give the empty cell (the
JavaScript code only indexes in range). -/
def getCell (g : AppGrid) (r c : Nat) : Cell :=
  (g.getD r []).getD c []

/-- Write the cell at (r, c); out of range writes are the identity, mirroring
that the code only writes in range. -/
def setCell (g : AppGrid) (r c : Nat) (v : Cell) : AppGrid :=
  g.set r ((g.getD r []).set c v)

/-- `clearType` from App.jsx: replace every cell containing the given tag by
the empty cell.  (In the code this is queued as a functional state update;
see `handleCellClick` for how that queue resolves.) -/
def clearType (t : Tag) (g : AppGrid) : AppGrid :=
  g.map (fun row => row.map (fun cell => if t ∈ cell then [] else cell))

/-- The grid-editing tools selectable in the UI. -/
inductive Tool
  | start
  | goal
  | obstacle
deriving DecidableEq, Repr

/-- `handleCellClick` from App.jsx, as the resulting React state.

The handler builds `newGrid` as a copy of the render-time `grid`, mutates
the clicked cell, and ends with `setGrid(newGrid)`.  For the start/goal
tools it first calls `clearType`, which enqueues a functional update
`setGrid(prev => ...)`.  React applies the queued updates in order: the
functional `clearType` update runs first, but the subsequent value update
`setGrid(newGrid)` replaces the state with `newGrid` wholesale - and
`newGrid` was derived from the grid as it stood before `clearType`.  The
post-event state is therefore exactly `newGrid`; the `clearType` effect is
discarded, and any previously placed start/goal tag at another cell
survives.  (The same resulting state is obtained under fully sequential
update semantics, since `newGrid` was computed before `clearType` ran.) -/
def handleCellClick (tool : Tool) (r c : Nat) (g : AppGrid) : AppGrid :=
  match tool with
  | Tool.start => setCell g r c [Tag.start]
  | Tool.goal => setCell g r c [Tag.goal]
  | Tool.obstacle =>
      if Tag.obstacle ∈ getCell g r c then
        setCell g r c ((getCell g r c).filter (fun x => x ≠ Tag.obstacle))
      else
        setCell g r c [Tag.obstacle]

/-- Row-major enumeration of the 10 x 10 coordinates, in the scan order of
`findCell`'s nested loops and of the obstacle-collecting `flatMap`s. -/
def allCoords : List Coord :=
  (List.range 10).flatMap (fun r => (List.range 10).map (fun c => (r, c)))

/-- `findCell` from App.jsx: first coordinate (row-major over the 10 x 10
grid) whose cell contains the tag, else `none`. -/
def findCell (g : AppGrid) (t : Tag) : Option Coord :=
  allCoords.find? (fun p => decide (t ∈ getCell g p.1 p.2))

/-- The obstacle list collected by `simulateAlgo`
(`grid.flatMap((row,r) => row.map((cell,c) => cell.includes("obstacle") ? [r,c] : null).filter(Boolean))`):
row-major coordinates of cells containing the obstacle tag. -/
def obstaclesOf (g : AppGrid) : List Coord :=
  allCoords.filter (fun p => decide (Tag.obstacle ∈ getCell g p.1 p.2))

/-- The `initialGrid` rebuild in `simulateAlgo` (lines 85-94): a fresh empty
grid with the start and goal cells set, then each collected obstacle
coordinate either placed as `["obstacle"]` (cell empty) or pushed onto the
existing cell (cell non-empty, i.e. the start/goal cell). -/
def rebuildGrid (s t : Coord) (obs : List Coord) : AppGrid :=
  let g1 := setCell (setCell createEmptyGrid s.1 s.2 [Tag.start]) t.1 t.2 [Tag.goal]
  obs.foldl
    (fun g p =>
      if getCell g p.1 p.2 = [] then setCell g p.1 p.2 [Tag.obstacle]
      else setCell g p.1 p.2 (getCell g p.1 p.2 ++ [Tag.obstacle])) g1

/-- One iteration of the path-animation loop in `simulateAlgo` for path
coordinate `p`: obstacle cells are skipped entirely (`continue`); otherwise
a trace tag is pushed for non-endpoint cells, and the robot tag is
re-pushed at the current cell. -/
def visStep (a : AlgoName) (s t : Coord) (g : AppGrid) (p : Coord) : AppGrid :=
  if p ≠ s ∧ p ≠ t ∧ Tag.obstacle ∈ getCell g p.1 p.2 then g
  else
    let c0 := getCell g p.1 p.2
    let c1 :=
      if p = s ∨ p = t then c0
      else if Tag.trace a ∈ c0 then c0 else c0 ++ [Tag.trace a]
    setCell g p.1 p.2 ((c1.filter (fun x => x ≠ Tag.robot)) ++ [Tag.robot])

/-- One iteration of the robot clean-up loop in `simulateAlgo`: remove the
robot tag from the cell at `p`. -/
def unrobotStep (g : AppGrid) (p : Coord) : AppGrid :=
  setCell g p.1 p.2 ((getCell g p.1 p.2).filter (fun x => x ≠ Tag.robot))

/-- Search Result contract (spec section 3): a path and the visited order. -/
structure SearchResult where
  path : List Coord
  visitedOrder : List Coord
deriving DecidableEq, Repr

/-- Decimal rendering of a natural number, the embedding of JavaScript's
number-to-JSON-text conversion for the coordinate components. -/
def encNat (n : Nat) : String := Nat.repr n

/-- `JSON.stringify` of a coordinate pair `[r, c]`. -/
def encodePair (p : Coord) : String :=
  "[" ++ encNat p.1 ++ "," ++ encNat p.2 ++ "]"

/-- `JSON.stringify` of a list of coordinate pairs `[[r,c],...]`. -/
def encodeCoordList (l : List Coord) : String :=
  "[" ++ String.intercalate "," (l.map encodePair) ++ "]"

/-- String form of an algorithm name as passed to `simulateAlgo`. -/
def algoNameString : AlgoName → String
  | AlgoName.BFS => "BFS"
  | AlgoName.DFS => "DFS"
  | AlgoName.DIJKSTRA => "DIJKSTRA"
  | AlgoName.ASTAR => "ASTAR"

/-- The run record POSTed to the persistence service (the `data` object of
`simulateAlgo`, lines 144-157).  `time_taken` is the wall-clock string
`(t1-t0).toFixed(2)`, carried opaquely. -/
structure RunRecord where
  algorithm : String
  start_point : String
  goal_point : String
  obstacles : String
  path : String
  path_length : Nat
  time_taken : String
deriving DecidableEq, Repr

/-- Assembly of the run record in `simulateAlgo`: all coordinate data is
JSON-stringified; the obstacles are re-collected from the (stale) `grid`
state; `path_length` is `result.path.length`. -/
def mkRecord (a : AlgoName) (s t : Coord) (g : AppGrid) (result : SearchResult)
    (elapsed : String) : RunRecord :=
  { algorithm := algoNameString a
    start_point := encodePair s
    goal_point := encodePair t
    obstacles := encodeCoordList (obstaclesOf g)
    path := encodeCoordList result.path
    path_length := result.path.length
    time_taken := elapsed }

/-- Observable outcome of one `simulateAlgo` invocation. -/
inductive SimOutcome
  | blocked
  | configError (msg : String)
  | noPath (msg : String)
  | saved (record : RunRecord)
deriving DecidableEq, Repr

/-- Outcome of `simulateAlgo` together with the exact argument triple, if
any, at which the search algorithm function was invoked. -/
structure SimResult where
  outcome : SimOutcome
  algoCalledOn : Option (AppGrid × Coord × Coord)

/-- `simulateAlgo` from App.jsx (lines 67-176), as a function of the
render-time grid state `g` and the algorithm function `f`.

Faithful control flow: an early return when the history panel is shown;
the precondition check `if (!start || !goal)` with the alert
"Set both start and goal points."; then the algorithm call
`algoFunc(grid, start, goal)` - note the argument is the captured `grid`
state, not the freshly rebuilt `initialGrid` (the rebuild only feeds
`setGrid` for the animation; those intermediate states are covered by the
reachability relation `Reach` below); the empty-path check with the alert
"No path found." and early return; finally the run record is assembled
and sent.  `elapsed` stands for the measured `(t1-t0).toFixed(2)` string. -/
def simulateAlgo (showHistory : Bool) (a : AlgoName)
    (f : AppGrid → Coord → Coord → SearchResult) (elapsed : String)
    (g : AppGrid) : SimResult :=
  if showHistory then { outcome := SimOutcome.blocked, algoCalledOn := none }
  else
    match findCell g Tag.start, findCell g Tag.goal with
    | some s, some t =>
        let result := f g s t
        if result.path = [] then
          { outcome := SimOutcome.noPath "No path found.", algoCalledOn := some (g, s, t) }
        else
          { outcome := SimOutcome.saved (mkRecord a s t g result elapsed)
            algoCalledOn := some (g, s, t) }
    | _, _ =>
        { outcome := SimOutcome.configError "Set both start and goal points."
          algoCalledOn := none }

/-- The run record handed to the persistence service by an invocation, if
any: only a `saved` outcome POSTs a record. -/
def recordSentBy (r : SimResult) : Option RunRecord :=
  match r.outcome with
  | SimOutcome.saved record => some record
  | _ => none

/-- Grid states the client can hold.  Constructors follow every `setGrid`
call site in App.jsx: the initial/cleared empty grid, a cell click, the
pre-run rebuild (performed when both endpoints were found), and the
animation updates.  The two animation constructors allow the trace/robot
steps from any reachable state with any parameters, a sound
over-approximation of the actual animation sequences (which apply exactly
these steps, from the rebuild state, along the returned path). -/
inductive Reach : AppGrid → Prop
  | init : Reach createEmptyGrid
  | click (tool : Tool) (r c : Nat) {g : AppGrid} :
      Reach g → Reach (handleCellClick tool r c g)
  | rebuild {g : AppGrid} {s t : Coord} :
      Reach g → findCell g Tag.start = some s → findCell g Tag.goal = some t →
      Reach (rebuildGrid s t (obstaclesOf g))
  | vis (a : AlgoName) (s t p : Coord) {g : AppGrid} :
      Reach g → Reach (visStep a s t g p)
  | unrobot (p : Coord) {g : AppGrid} :
      Reach g → Reach (unrobotStep g p)

/-! ## List indexing helpers -/

theorem getD_set_self {α : Type} :
    ∀ (l : List α) (n : Nat) (a d : α), n < l.length → (l.set n a).getD n d = a := by
  intro l
  induction l with
  | nil => intro n a d h; simp at h
  | cons x xs ih =>
      intro n a d h
      cases n with
      | zero => simp
      | succ m =>
          simp only [List.set_cons_succ, List.getD_cons_succ]
          exact ih m a d (by simpa using h)

theorem getD_set_ne {α : Type} :
    ∀ (l : List α) (m n : Nat) (a d : α), m ≠ n → (l.set m a).getD n d = l.getD n d := by
  intro l
  induction l with
  | nil => intro m n a d _; simp
  | cons x xs ih =>
      intro m n a d hmn
      cases m with
      | zero =>
          cases n with
          | zero => exact absurd rfl hmn
          | succ k => simp
      | succ m' =>
          cases n with
          | zero => simp
          | succ k =>
              simp only [List.set_cons_succ, List.getD_cons_succ]
              exact ih m' k a d (fun h => hmn (by omega))

theorem getD_mem_or_default {α : Type} (l : List α) (n : Nat) (d : α) :
    l.getD n d ∈ l ∨ l.getD n d = d := by
  by_cases h : n < l.length
  · left
    rw [List.getD_eq_getElem l d h]
    exact List.getElem_mem h
  · right
    exact List.getD_eq_default l d (by omega)

/-! ## Cell and grid basics -/

/-- Cells of `setCell g r c v` are cells of `g` or the written cell `v`. -/
theorem mem_setCell {g : AppGrid} {r c : Nat} {v : Cell} {row : List Cell} {cell : Cell}
    (hrow : row ∈ setCell g r c v) (hcell : cell ∈ row) :
    (∃ row0 ∈ g, cell ∈ row0) ∨ cell = v := by
  rcases List.mem_or_eq_of_mem_set hrow with h | h
  · exact Or.inl ⟨row, h, hcell⟩
  · subst h
    rcases List.mem_or_eq_of_mem_set hcell with h2 | h2
    · rcases getD_mem_or_default g r [] with h3 | h3
      · exact Or.inl ⟨g.getD r [], h3, h2⟩
      · rw [h3] at h2; simp at h2
    · exact Or.inr h2

theorem getCell_setCell_self {g : AppGrid} {r c : Nat} (v : Cell)
    (hr : r < g.length) (hc : c < (g.getD r []).length) :
    getCell (setCell g r c v) r c = v := by
  unfold getCell setCell
  rw [getD_set_self _ _ _ _ hr, getD_set_self _ _ _ _ hc]

theorem getCell_setCell_ne {g : AppGrid} {r c : Nat} (v : Cell) {r' c' : Nat}
    (h : ¬(r = r' ∧ c = c')) :
    getCell (setCell g r c v) r' c' = getCell g r' c' := by
  unfold getCell setCell
  by_cases hr : r = r'
  · subst hr
    have hc : c ≠ c' := fun hcc => h ⟨rfl, hcc⟩
    by_cases hlen : r < g.length
    · rw [getD_set_self _ _ _ _ hlen, getD_set_ne _ _ _ _ _ hc]
    · rw [List.set_eq_of_length_le (by omega)]
  · rw [getD_set_ne _ _ _ _ _ hr]

theorem length_setCell (g : AppGrid) (r c : Nat) (v : Cell) :
    (setCell g r c v).length = g.length := by
  unfold setCell; simp

/-- Well-formed grid: 10 rows, each of 10 cells. -/
def WF (g : AppGrid) : Prop := g.length = 10 ∧ ∀ row ∈ g, row.length = 10

theorem wf_createEmptyGrid : WF createEmptyGrid := by
  constructor
  · simp [createEmptyGrid]
  · intro row hrow
    have := List.eq_of_mem_replicate hrow
    subst this; simp

theorem wf_setCell {g : AppGrid} (r c : Nat) (v : Cell) (h : WF g) :
    WF (setCell g r c v) := by
  constructor
  · rw [length_setCell]; exact h.1
  · intro row hrow
    by_cases hr : r < g.length
    · rcases List.mem_or_eq_of_mem_set hrow with h2 | h2
      · exact h.2 row h2
      · subst h2
        rw [List.length_set]
        exact h.2 _ (by rw [List.getD_eq_getElem g [] hr]; exact List.getElem_mem hr)
    · unfold setCell at hrow
      rw [List.set_eq_of_length_le (by omega)] at hrow
      exact h.2 row hrow

theorem getCell_createEmptyGrid (r c : Nat) : getCell createEmptyGrid r c = [] := by
  unfold getCell createEmptyGrid
  rcases getD_mem_or_default (List.replicate 10 (List.replicate 10 ([] : Cell))) r [] with h | h
  · have := List.eq_of_mem_replicate h
    rw [this]
    rcases getD_mem_or_default (List.replicate 10 ([] : Cell)) c [] with h2 | h2
    · exact List.eq_of_mem_replicate h2
    · exact h2
  · rw [h]; simp

theorem mem_allCoords {p : Coord} : p ∈ allCoords ↔ p.1 < 10 ∧ p.2 < 10 := by
  unfold allCoords
  constructor
  · intro h
    simp only [List.mem_flatMap, List.mem_map, List.mem_range] at h
    rcases h with ⟨r, hr, c, hc, hp⟩
    subst hp; exact ⟨hr, hc⟩
  · intro ⟨h1, h2⟩
    simp only [List.mem_flatMap, List.mem_map, List.mem_range]
    exact ⟨p.1, h1, p.2, h2, rfl⟩

theorem findCell_mem {g : AppGrid} {t : Tag} {p : Coord} (h : findCell g t = some p) :
    t ∈ getCell g p.1 p.2 ∧ p.1 < 10 ∧ p.2 < 10 := by
  unfold findCell at h
  have h1 := List.find?_some h
  have h2 := List.mem_of_find?_eq_some h
  refine ⟨by simpa using h1, ?_⟩
  exact mem_allCoords.mp h2

theorem mem_obstaclesOf {g : AppGrid} {p : Coord} :
    p ∈ obstaclesOf g ↔ (p.1 < 10 ∧ p.2 < 10) ∧ Tag.obstacle ∈ getCell g p.1 p.2 := by
  unfold obstaclesOf
  rw [List.mem_filter, mem_allCoords]
  simp

/-! ## The role-overlap invariant (claims C2, C3) -/

/-- A cell is role-consistent when it does not hold the obstacle tag together
with a start or goal tag. -/
def CellOk (cell : Cell) : Prop :=
  ¬(Tag.obstacle ∈ cell ∧ (Tag.start ∈ cell ∨ Tag.goal ∈ cell))

/-- No cell of the grid holds obstacle together with start or goal. -/
def NoJoint (g : AppGrid) : Prop := ∀ row ∈ g, ∀ cell ∈ row, CellOk cell

theorem noJoint_getCell {g : AppGrid} (h : NoJoint g) (r c : Nat) :
    CellOk (getCell g r c) := by
  unfold getCell
  rcases getD_mem_or_default g r [] with h1 | h1
  · rcases getD_mem_or_default (g.getD r []) c [] with h2 | h2
    · exact h _ h1 _ h2
    · rw [h2]; intro hx; simp at hx
  · rw [h1]
    intro hx
    simp only [List.getD_nil] at hx
    simp at hx

theorem noJoint_setCell {g : AppGrid} {r c : Nat} {v : Cell}
    (h : NoJoint g) (hv : CellOk v) : NoJoint (setCell g r c v) := by
  intro row hrow cell hcell
  rcases mem_setCell hrow hcell with ⟨row0, h1, h2⟩ | h1
  · exact h row0 h1 cell h2
  · subst h1; exact hv

theorem noJoint_handleCellClick {g : AppGrid} (tool : Tool) (r c : Nat)
    (h : NoJoint g) : NoJoint (handleCellClick tool r c g) := by
  cases tool with
  | start =>
      apply noJoint_setCell h
      intro hx
      rcases hx with ⟨h1, _⟩
      simp at h1
  | goal =>
      apply noJoint_setCell h
      intro hx
      rcases hx with ⟨h1, _⟩
      simp at h1
  | obstacle =>
      unfold handleCellClick
      by_cases hmem : Tag.obstacle ∈ getCell g r c
      · rw [if_pos hmem]
        apply noJoint_setCell h
        intro hx
        rcases hx with ⟨h1, _⟩
        rcases List.mem_filter.mp h1 with ⟨_, h3⟩
        simp at h3
      · rw [if_neg hmem]
        apply noJoint_setCell h
        intro hx
        rcases hx with ⟨_, h2⟩
        rcases h2 with h2 | h2 <;> simp at h2

theorem noJoint_visStep {g : AppGrid} (a : AlgoName) (s t p : Coord)
    (h : NoJoint g) : NoJoint (visStep a s t g p) := by
  unfold visStep
  by_cases hskip : p ≠ s ∧ p ≠ t ∧ Tag.obstacle ∈ getCell g p.1 p.2
  · rw [if_pos hskip]; exact h
  · rw [if_neg hskip]
    apply noJoint_setCell h
    have hc0 := noJoint_getCell h p.1 p.2
    intro hx
    rcases hx with ⟨h1, h2⟩
    apply hc0
    -- strip the appended robot tag and the possibly appended trace tag
    have strip : ∀ (l : List Tag) (x : Tag),
        x ∈ ((if p = s ∨ p = t then l
              else if Tag.trace a ∈ l then l else l ++ [Tag.trace a]).filter
                (fun y => y ≠ Tag.robot)) ++ [Tag.robot] →
        x = Tag.robot ∨ x = Tag.trace a ∨ x ∈ l := by
      intro l x hx2
      rcases List.mem_append.mp hx2 with h3 | h3
      · have h4 := (List.mem_filter.mp h3).1
        split at h4
        · exact Or.inr (Or.inr h4)
        · split at h4
          · exact Or.inr (Or.inr h4)
          · rcases List.mem_append.mp h4 with h5 | h5
            · exact Or.inr (Or.inr h5)
            · simp at h5; exact Or.inr (Or.inl h5)
      · simp at h3; exact Or.inl h3
    have hob := strip _ _ h1
    rcases hob with h3 | h3 | h3
    · exact absurd h3 (by simp)
    · exact absurd h3 (by simp)
    · refine ⟨h3, ?_⟩
      rcases h2 with h4 | h4
      · rcases strip _ _ h4 with h5 | h5 | h5
        · exact absurd h5 (by simp)
        · exact absurd h5 (by simp)
        · exact Or.inl h5
      · rcases strip _ _ h4 with h5 | h5 | h5
        · exact absurd h5 (by simp)
        · exact absurd h5 (by simp)
        · exact Or.inr h5

theorem noJoint_unrobotStep {g : AppGrid} (p : Coord)
    (h : NoJoint g) : NoJoint (unrobotStep g p) := by
  unfold unrobotStep
  apply noJoint_setCell h
  have hc0 := noJoint_getCell h p.1 p.2
  intro hx
  rcases hx with ⟨h1, h2⟩
  apply hc0
  refine ⟨(List.mem_filter.mp h1).1, ?_⟩
  rcases h2 with h2 | h2
  · exact Or.inl (List.mem_filter.mp h2).1
  · exact Or.inr (List.mem_filter.mp h2).1

theorem noJoint_of_getCell {g : AppGrid} (h : ∀ r c, CellOk (getCell g r c)) :
    NoJoint g := by
  intro row hrow cell hcell
  rcases List.getElem_of_mem hrow with ⟨i, hi, hrow2⟩
  rcases List.getElem_of_mem hcell with ⟨j, hj, hcell2⟩
  have : getCell g i j = cell := by
    unfold getCell
    rw [List.getD_eq_getElem g [] hi, hrow2, List.getD_eq_getElem row [] hj, hcell2]
  rw [← this]
  exact h i j

theorem row_len_of_wf {g : AppGrid} (h : WF g) {r : Nat} (hr : r < 10) :
    (g.getD r []).length = 10 := by
  have hlen := h.1
  have hr2 : r < g.length := by omega
  rw [List.getD_eq_getElem g [] hr2]
  exact h.2 _ (List.getElem_mem hr2)

/-- Invariant carried through the `initialGrid` rebuild fold: well-formed
grid, no role overlap anywhere, and start/goal tags occur only at the two
endpoint coordinates. -/
def RoleInv (g : AppGrid) (s t : Coord) : Prop :=
  WF g ∧ (∀ r c, CellOk (getCell g r c)) ∧
    (∀ r c, (Tag.start ∈ getCell g r c ∨ Tag.goal ∈ getCell g r c) →
      (r, c) = s ∨ (r, c) = t)

theorem roleInv_setCell {g : AppGrid} {s t : Coord} (h : RoleInv g s t)
    {p : Coord} (hp : p.1 < 10 ∧ p.2 < 10) {v : Cell} (hv : CellOk v)
    (hv2 : Tag.start ∉ v ∧ Tag.goal ∉ v) :
    RoleInv (setCell g p.1 p.2 v) s t := by
  have hglen := h.1.1
  have hlen : p.1 < g.length := by omega
  have hclen : p.2 < (g.getD p.1 []).length := by rw [row_len_of_wf h.1 hp.1]; exact hp.2
  refine ⟨wf_setCell _ _ _ h.1, ?_, ?_⟩
  · intro r c
    by_cases hrc : p.1 = r ∧ p.2 = c
    · rw [← hrc.1, ← hrc.2, getCell_setCell_self v hlen hclen]; exact hv
    · rw [getCell_setCell_ne v hrc]; exact h.2.1 r c
  · intro r c hmem
    by_cases hrc : p.1 = r ∧ p.2 = c
    · rw [← hrc.1, ← hrc.2, getCell_setCell_self v hlen hclen] at hmem
      rcases hmem with hm | hm
      · exact absurd hm hv2.1
      · exact absurd hm hv2.2
    · rw [getCell_setCell_ne v hrc] at hmem
      exact h.2.2 r c hmem

theorem roleInv_obsFold (s t : Coord) :
    ∀ (obs : List Coord) (g : AppGrid), RoleInv g s t →
    (∀ p ∈ obs, (p.1 < 10 ∧ p.2 < 10) ∧ p ≠ s ∧ p ≠ t) →
    RoleInv (obs.foldl
      (fun g p =>
        if getCell g p.1 p.2 = [] then setCell g p.1 p.2 [Tag.obstacle]
        else setCell g p.1 p.2 (getCell g p.1 p.2 ++ [Tag.obstacle])) g) s t := by
  intro obs
  induction obs with
  | nil => intro g hg _; exact hg
  | cons p ps ih =>
      intro g hg hobs
      have hp := hobs p (List.mem_cons_self p ps)
      have hroles : Tag.start ∉ getCell g p.1 p.2 ∧ Tag.goal ∉ getCell g p.1 p.2 := by
        constructor
        · intro hmem
          rcases hg.2.2 p.1 p.2 (Or.inl hmem) with he | he
          · exact hp.2.1 (by rw [← he])
          · exact hp.2.2 (by rw [← he])
        · intro hmem
          rcases hg.2.2 p.1 p.2 (Or.inr hmem) with he | he
          · exact hp.2.1 (by rw [← he])
          · exact hp.2.2 (by rw [← he])
      rw [List.foldl_cons]
      apply ih
      · by_cases hempty : getCell g p.1 p.2 = []
        · rw [if_pos hempty]
          refine roleInv_setCell hg hp.1 ?_ ?_
          · intro hx; rcases hx.2 with hm | hm <;> simp at hm
          · constructor <;> simp
        · rw [if_neg hempty]
          refine roleInv_setCell hg hp.1 ?_ ?_
          · intro hx
            rcases hx.2 with hm | hm
            · rcases List.mem_append.mp hm with hm2 | hm2
              · exact hroles.1 hm2
              · simp at hm2
            · rcases List.mem_append.mp hm with hm2 | hm2
              · exact hroles.2 hm2
              · simp at hm2
          · constructor
            · intro hm
              rcases List.mem_append.mp hm with hm2 | hm2
              · exact hroles.1 hm2
              · simp at hm2
            · intro hm
              rcases List.mem_append.mp hm with hm2 | hm2
              · exact hroles.2 hm2
              · simp at hm2
      · intro q hq; exact hobs q (List.mem_cons_of_mem p hq)

theorem roleInv_start_goal (s t : Coord) (hs : s.1 < 10 ∧ s.2 < 10)
    (ht : t.1 < 10 ∧ t.2 < 10) :
    RoleInv (setCell (setCell createEmptyGrid s.1 s.2 [Tag.start]) t.1 t.2 [Tag.goal]) s t := by
  have hwf0 : WF createEmptyGrid := wf_createEmptyGrid
  have hwfS : WF (setCell createEmptyGrid s.1 s.2 [Tag.start]) := wf_setCell _ _ _ hwf0
  have hwf1 : WF (setCell (setCell createEmptyGrid s.1 s.2 [Tag.start]) t.1 t.2 [Tag.goal]) :=
    wf_setCell _ _ _ hwfS
  have hcompute : ∀ r c,
      getCell (setCell (setCell createEmptyGrid s.1 s.2 [Tag.start]) t.1 t.2 [Tag.goal]) r c =
        (if t.1 = r ∧ t.2 = c then [Tag.goal]
         else if s.1 = r ∧ s.2 = c then [Tag.start] else []) := by
    intro r c
    by_cases h1 : t.1 = r ∧ t.2 = c
    · rw [if_pos h1, ← h1.1, ← h1.2]
      exact getCell_setCell_self _
        (by rw [length_setCell]; have hlen := hwf0.1; omega)
        (by rw [row_len_of_wf hwfS ht.1]; exact ht.2)
    · rw [if_neg h1, getCell_setCell_ne _ h1]
      by_cases h2 : s.1 = r ∧ s.2 = c
      · rw [if_pos h2, ← h2.1, ← h2.2]
        exact getCell_setCell_self _
          (by have hlen := hwf0.1; omega)
          (by rw [row_len_of_wf hwf0 hs.1]; exact hs.2)
      · rw [if_neg h2, getCell_setCell_ne _ h2, getCell_createEmptyGrid]
  refine ⟨hwf1, ?_, ?_⟩
  · intro r c
    rw [hcompute r c]
    split
    · intro hx; rcases hx.1 with hm; simp at hm
    · split
      · intro hx; rcases hx.1 with hm; simp at hm
      · intro hx; rcases hx.1 with hm; simp at hm
  · intro r c hmem
    rw [hcompute r c] at hmem
    split at hmem
    · rename_i h1
      right; rw [← h1.1, ← h1.2]
    · split at hmem
      · rename_i h2
        left; rw [← h2.1, ← h2.2]
      · rcases hmem with hm | hm <;> simp at hm

theorem noJoint_rebuild {g : AppGrid} {s t : Coord} (h : NoJoint g)
    (hs : findCell g Tag.start = some s) (ht : findCell g Tag.goal = some t) :
    NoJoint (rebuildGrid s t (obstaclesOf g)) := by
  rcases findCell_mem hs with ⟨hsmem, hsb⟩
  rcases findCell_mem ht with ⟨htmem, htb⟩
  have hobs : ∀ p ∈ obstaclesOf g, (p.1 < 10 ∧ p.2 < 10) ∧ p ≠ s ∧ p ≠ t := by
    intro p hp
    rcases mem_obstaclesOf.mp hp with ⟨hb, hob⟩
    refine ⟨hb, ?_, ?_⟩
    · intro he
      subst he
      exact noJoint_getCell h p.1 p.2 ⟨hob, Or.inl hsmem⟩
    · intro he
      subst he
      exact noJoint_getCell h p.1 p.2 ⟨hob, Or.inr htmem⟩
  have hfold := roleInv_obsFold s t (obstaclesOf g) _ (roleInv_start_goal s t hsb htb) hobs
  exact noJoint_of_getCell hfold.2.1

/-- Every reachable client grid state is free of obstacle/start and
obstacle/goal overlaps. -/
theorem reach_noJoint {g : AppGrid} (h : Reach g) : NoJoint g := by
  induction h with
  | init =>
      intro row hrow cell hcell
      have := List.eq_of_mem_replicate hrow
      subst this
      have := List.eq_of_mem_replicate hcell
      subst this
      intro hx; simp at hx
  | click tool r c _ ih => exact noJoint_handleCellClick tool r c ih
  | rebuild _ hs ht ih => exact noJoint_rebuild ih hs ht
  | vis a s t p _ ih => exact noJoint_visStep a s t p ih
  | unrobot p _ ih => exact noJoint_unrobotStep p ih

/-! ## Claim C2 / C3 theorems -/

/-- Number of cells of the grid containing a given tag. -/
def tagCount (g : AppGrid) (t : Tag) : Nat :=
  (g.flatten.filter (fun cell => decide (t ∈ cell))).length

/-- C2: the claim states that after every `handleCellClick` at most one cell
holds the start role and at most one the goal role.  The code violates this:
placing a start while another start exists leaves both in place, because the
final `setGrid(newGrid)` (built from the pre-click grid) supersedes the
queued `clearType` update.  This theorem exhibits a reachable state produced
by two start-tool clicks that holds two start cells. -/
theorem claim_C2_duplicate_start :
    Reach (handleCellClick Tool.start 1 1 (handleCellClick Tool.start 0 0 createEmptyGrid)) ∧
    tagCount (handleCellClick Tool.start 1 1 (handleCellClick Tool.start 0 0 createEmptyGrid))
      Tag.start = 2 :=
  ⟨Reach.click Tool.start 1 1 (Reach.click Tool.start 0 0 Reach.init), by decide⟩

/-- C3: in every grid state produced by cell editing (`handleCellClick`) or
by the per-run grid rebuild of `simulateAlgo` (from a reachable client
state), no cell simultaneously holds the obstacle role and the start or goal
role. -/
theorem claim_C3_no_role_overlap :
    (∀ (tool : Tool) (r c : Nat) (g : AppGrid), Reach g →
      NoJoint (handleCellClick tool r c g)) ∧
    (∀ (g : AppGrid) (s t : Coord), Reach g →
      findCell g Tag.start = some s → findCell g Tag.goal = some t →
      NoJoint (rebuildGrid s t (obstaclesOf g))) := by
  constructor
  · intro tool r c g hg
    exact noJoint_handleCellClick tool r c (reach_noJoint hg)
  · intro g s t hg hs ht
    exact noJoint_rebuild (reach_noJoint hg) hs ht

/-- Witness for C3 at a concrete reachable state. -/
theorem claim_C3_witness :
    NoJoint (handleCellClick Tool.obstacle 0 0 createEmptyGrid) :=
  claim_C3_no_role_overlap.1 Tool.obstacle 0 0 createEmptyGrid Reach.init

/-! ## Claim C4 / C5 theorems -/

/-- C4: when the start or the goal role is absent from the grid, the search
algorithm function is never invoked, and (when the history panel is closed,
so the invocation is not silently swallowed by the UI guard) the outcome is
the configuration message. -/
theorem claim_C4_missing_endpoint_rejected (sh : Bool) (a : AlgoName)
    (f : AppGrid → Coord → Coord → SearchResult) (e : String) (g : AppGrid)
    (h : findCell g Tag.start = none ∨ findCell g Tag.goal = none) :
    (simulateAlgo sh a f e g).algoCalledOn = none ∧
    (sh = false →
      (simulateAlgo sh a f e g).outcome =
        SimOutcome.configError "Set both start and goal points.") := by
  cases sh with
  | true => exact ⟨by simp [simulateAlgo], by intro h2; cases h2⟩
  | false =>
      rcases hs : findCell g Tag.start with _ | s <;>
        rcases ht : findCell g Tag.goal with _ | t <;>
        simp [simulateAlgo, hs, ht] <;>
        rcases h with h | h <;> simp_all

/-- Witness for C4: the empty grid has no start cell, and the invocation is
rejected with the configuration message without calling the algorithm. -/
theorem claim_C4_witness :
    (simulateAlgo false AlgoName.BFS (fun _ _ _ => ⟨[], []⟩) "0.00"
        createEmptyGrid).algoCalledOn = none ∧
    (simulateAlgo false AlgoName.BFS (fun _ _ _ => ⟨[], []⟩) "0.00"
        createEmptyGrid).outcome =
      SimOutcome.configError "Set both start and goal points." := by
  have h := claim_C4_missing_endpoint_rejected false AlgoName.BFS
    (fun _ _ _ => ⟨[], []⟩) "0.00" createEmptyGrid (Or.inl (by decide))
  exact ⟨h.1, h.2 rfl⟩

/-- C5: the configuration message appears exactly when an endpoint is unset,
the no-path message exactly when the invoked search returns an empty path,
those are the only texts either message can carry, and in both failure modes
no run record is handed to the persistence service. -/
theorem claim_C5_failure_modes (a : AlgoName)
    (f : AppGrid → Coord → Coord → SearchResult) (e : String) (g : AppGrid) :
    ((simulateAlgo false a f e g).outcome =
        SimOutcome.configError "Set both start and goal points." ↔
      (findCell g Tag.start = none ∨ findCell g Tag.goal = none)) ∧
    ((simulateAlgo false a f e g).outcome = SimOutcome.noPath "No path found." ↔
      (∃ s t, findCell g Tag.start = some s ∧ findCell g Tag.goal = some t ∧
        (f g s t).path = [])) ∧
    (∀ m, (simulateAlgo false a f e g).outcome = SimOutcome.configError m →
      m = "Set both start and goal points.") ∧
    (∀ m, (simulateAlgo false a f e g).outcome = SimOutcome.noPath m →
      m = "No path found.") ∧
    (((findCell g Tag.start = none ∨ findCell g Tag.goal = none) ∨
        (∃ s t, findCell g Tag.start = some s ∧ findCell g Tag.goal = some t ∧
          (f g s t).path = [])) →
      recordSentBy (simulateAlgo false a f e g) = none) := by
  rcases hs : findCell g Tag.start with _ | s
  · rcases ht : findCell g Tag.goal with _ | t <;>
      simp [simulateAlgo, recordSentBy, hs, ht]
  · rcases ht : findCell g Tag.goal with _ | t
    · simp [simulateAlgo, recordSentBy, hs, ht]
    · by_cases hp : (f g s t).path = [] <;>
        simp [simulateAlgo, recordSentBy, hs, ht, hp]

/-- Witness for C5 on the empty grid: the configuration message is produced
and no record is sent. -/
theorem claim_C5_witness :
    (simulateAlgo false AlgoName.BFS (fun _ _ _ => ⟨[], []⟩) "0.00"
        createEmptyGrid).outcome =
      SimOutcome.configError "Set both start and goal points." ∧
    recordSentBy (simulateAlgo false AlgoName.BFS (fun _ _ _ => ⟨[], []⟩) "0.00"
        createEmptyGrid) = none := by
  have h := claim_C5_failure_modes AlgoName.BFS (fun _ _ _ => ⟨[], []⟩) "0.00"
    createEmptyGrid
  exact ⟨h.1.mpr (Or.inl (by decide)), h.2.2.2.2 (Or.inl (Or.inl (by decide)))⟩

/-! ## Claim C6 (amended) and C8 theorems -/

/-- C6 (amended): for every persisted run the `path_length` field equals the
number of coordinates of the returned path, which is the edge count plus
one (the path is non-empty whenever a record is persisted); the original
claim's value (edge count, i.e. one less) does not match the code. -/
theorem claim_C6_path_length_field (sh : Bool) (a : AlgoName)
    (f : AppGrid → Coord → Coord → SearchResult) (e : String) (g : AppGrid)
    (R : RunRecord) (s t : Coord)
    (hs : findCell g Tag.start = some s) (ht : findCell g Tag.goal = some t)
    (hR : recordSentBy (simulateAlgo sh a f e g) = some R) :
    R.path_length = (f g s t).path.length ∧ (f g s t).path ≠ [] ∧
    R.path_length = ((f g s t).path.length - 1) + 1 := by
  cases sh with
  | true => simp [simulateAlgo, recordSentBy] at hR
  | false =>
      by_cases hp : (f g s t).path = [] <;>
        simp [simulateAlgo, recordSentBy, hs, ht, hp] at hR
      have hlen : (f g s t).path.length ≠ 0 := by
        intro h0; exact hp (List.eq_nil_of_length_eq_zero h0)
      refine ⟨?_, hp, ?_⟩
      · rw [← hR]; rfl
      · rw [← hR]
        show (f g s t).path.length = ((f g s t).path.length - 1) + 1
        omega

/-- Concrete run used to witness the record-assembly claims: a start at
(0,0), a goal at (0,1), and an algorithm returning the two-cell path. -/
def gridSG : AppGrid :=
  handleCellClick Tool.goal 0 1 (handleCellClick Tool.start 0 0 createEmptyGrid)

/-- A concrete search function returning the two-cell path. -/
def pathAlgo : AppGrid → Coord → Coord → SearchResult :=
  fun _ _ _ => ⟨[(0, 0), (0, 1)], [(0, 0), (0, 1)]⟩

/-- The record the concrete run persists. -/
def recSG : RunRecord :=
  mkRecord AlgoName.BFS (0, 0) (0, 1) gridSG (pathAlgo gridSG (0, 0) (0, 1)) "0.00"

/-- Witness for the amended C6 at the concrete run: the field holds 2, the
coordinate count of the two-cell path. -/
theorem claim_C6_witness :
    recSG.path_length = (pathAlgo gridSG (0, 0) (0, 1)).path.length ∧
    (pathAlgo gridSG (0, 0) (0, 1)).path ≠ [] ∧
    recSG.path_length = ((pathAlgo gridSG (0, 0) (0, 1)).path.length - 1) + 1 :=
  claim_C6_path_length_field false AlgoName.BFS pathAlgo "0.00" gridSG recSG
    (0, 0) (0, 1) (by decide) (by decide) (by decide)

/-- C8: every persisted run record carries the start, goal, obstacle and path
fields as the JSON text encodings of the corresponding coordinate data -
start and goal as one `[r,c]` pair each, obstacles and path as lists of such
pairs. -/
theorem claim_C8_record_serialization (sh : Bool) (a : AlgoName)
    (f : AppGrid → Coord → Coord → SearchResult) (e : String) (g : AppGrid)
    (R : RunRecord) (s t : Coord)
    (hs : findCell g Tag.start = some s) (ht : findCell g Tag.goal = some t)
    (hR : recordSentBy (simulateAlgo sh a f e g) = some R) :
    R.start_point = encodePair s ∧ R.goal_point = encodePair t ∧
    R.obstacles = encodeCoordList (obstaclesOf g) ∧
    R.path = encodeCoordList ((f g s t).path) := by
  cases sh with
  | true => simp [simulateAlgo, recordSentBy] at hR
  | false =>
      by_cases hp : (f g s t).path = [] <;>
        simp [simulateAlgo, recordSentBy, hs, ht, hp] at hR
      rw [← hR]
      exact ⟨rfl, rfl, rfl, rfl⟩

/-- Witness for C8 at the concrete run. -/
theorem claim_C8_witness :
    recSG.start_point = encodePair (0, 0) ∧ recSG.goal_point = encodePair (0, 1) ∧
    recSG.obstacles = encodeCoordList (obstaclesOf gridSG) ∧
    recSG.path = encodeCoordList ((pathAlgo gridSG (0, 0) (0, 1)).path) :=
  claim_C8_record_serialization false AlgoName.BFS pathAlgo "0.00" gridSG recSG
    (0, 0) (0, 1) (by decide) (by decide) (by decide)

/-! ## Claim C7 theorem -/

/-- Client state with a start at (0,0) and a goal at (0,2). -/
def c7Grid0 : AppGrid :=
  handleCellClick Tool.goal 0 2 (handleCellClick Tool.start 0 0 createEmptyGrid)

/-- The rebuilt grid of the first run. -/
def c7Rebuilt : AppGrid := rebuildGrid (0, 0) (0, 2) (obstaclesOf c7Grid0)

/-- The grid state left behind by the first run's animation: the path cell
(0,1) keeps the BFS trace tag after the robot clean-up. -/
def c7AfterRun : AppGrid :=
  unrobotStep (visStep AlgoName.BFS (0, 0) (0, 2) c7Rebuilt (0, 1)) (0, 1)

/-- C7: the claim states that every grid snapshot handed to a search
algorithm holds only roles from the closed set (no leftover trace or robot
tags).  The code violates this: `simulateAlgo` passes the captured `grid`
state - not the freshly rebuilt `initialGrid` - to `algoFunc`, and after a
previous run that state still carries the algorithm-trace tag.  This
theorem exhibits a reachable post-run state that a second invocation hands
to the algorithm with a trace tag still present. -/
theorem claim_C7_stale_snapshot :
    Reach c7AfterRun ∧
    (simulateAlgo false AlgoName.DIJKSTRA (fun _ _ _ => ⟨[], []⟩) "0.00"
        c7AfterRun).algoCalledOn = some (c7AfterRun, (0, 0), (0, 2)) ∧
    Tag.trace AlgoName.BFS ∈ getCell c7AfterRun 0 1 :=
  ⟨Reach.unrobot (0, 1)
      (Reach.vis AlgoName.BFS (0, 0) (0, 2) (0, 1)
        (Reach.rebuild
          (Reach.click Tool.goal 0 2 (Reach.click Tool.start 0 0 Reach.init))
          (by decide) (by decide))),
    by decide, by decide⟩

/-! ## Persistence server model (server.js)

The `logs` table has an `AUTO_INCREMENT PRIMARY KEY id`; a row is an id plus
the posted run-record fields.  `POST /api/path` inserts with the next id;
`GET /api/paths` runs `SELECT * FROM logs ORDER BY id DESC`;
`DELETE /api/paths` runs `TRUNCATE TABLE logs` (which also resets the
auto-increment counter).  Database errors surface as a 500 response with the
error message; success responses are the JSON row list (GET), the inserted
id (POST) or the message "Logs cleared." (DELETE). -/

structure LogRow where
  id : Nat
  record : RunRecord
deriving DecidableEq, Repr

structure DBState where
  nextId : Nat
  rows : List LogRow
deriving DecidableEq, Repr

/-- Fresh database: empty table, auto-increment counter at 1. -/
def initialDB : DBState := { nextId := 1, rows := [] }

/-- `POST /api/path`: insert a row with the next auto-increment id. -/
def insertLog (db : DBState) (r : RunRecord) : DBState :=
  { nextId := db.nextId + 1, rows := db.rows ++ [{ id := db.nextId, record := r }] }

/-- `TRUNCATE TABLE logs`: all rows removed, counter reset. -/
def truncateLogs (_db : DBState) : DBState := { nextId := 1, rows := [] }

/-- Insertion into a list sorted by descending id (stable: equal ids keep
earlier elements first; ids are in fact unique here). -/
def insertDesc (x : LogRow) : List LogRow → List LogRow
  | [] => [x]
  | y :: ys => if x.id ≥ y.id then x :: y :: ys else y :: insertDesc x ys

/-- `ORDER BY id DESC` as an insertion sort. -/
def orderByIdDesc : List LogRow → List LogRow
  | [] => []
  | x :: xs => insertDesc x (orderByIdDesc xs)

/-- Response of `GET /api/paths`. -/
inductive GetResp
  | ok (rows : List LogRow)
  | errorStatus (code : Nat) (body : String)
deriving DecidableEq, Repr

/-- `GET /api/paths` handler: on success the rows sorted by id descending,
on a query error status 500 with the error body. -/
def getPathsHandler (db : DBState) (dbError : Option String) : GetResp :=
  match dbError with
  | none => GetResp.ok (orderByIdDesc db.rows)
  | some e => GetResp.errorStatus 500 e

/-- Response of `DELETE /api/paths`. -/
inductive DelResp
  | okMsg (msg : String)
  | errorStatus (code : Nat) (body : String)
deriving DecidableEq, Repr

/-- `DELETE /api/paths` handler: truncate, answering "Logs cleared." on
success and status 500 with the error body on failure (the table is left as
is when the query fails). -/
def deletePaths (db : DBState) (dbError : Option String) : DBState × DelResp :=
  match dbError with
  | none => (truncateLogs db, DelResp.okMsg "Logs cleared.")
  | some e => (db, DelResp.errorStatus 500 e)

/-- Database states reachable through the server routes. -/
inductive ReachDB : DBState → Prop
  | init : ReachDB initialDB
  | post (r : RunRecord) {db : DBState} : ReachDB db → ReachDB (insertLog db r)
  | del {db : DBState} : ReachDB db → ReachDB (truncateLogs db)

/-- Auto-increment invariant: ids strictly increase in insertion order and
stay below the counter. -/
def DBInv (db : DBState) : Prop :=
  (∀ row ∈ db.rows, row.id < db.nextId) ∧
    List.Pairwise (fun a b => a.id < b.id) db.rows

theorem reachDB_inv {db : DBState} (h : ReachDB db) : DBInv db := by
  induction h with
  | init => exact ⟨by intro row hr; simp [initialDB] at hr, by simp [initialDB]⟩
  | post r _ ih =>
      constructor
      · intro row hr
        rcases List.mem_append.mp hr with h2 | h2
        · have := ih.1 row h2; simp [insertLog]; omega
        · simp at h2; subst h2; simp [insertLog]
      · refine List.pairwise_append.mpr ⟨ih.2, by simp, ?_⟩
        intro a ha b hb
        simp at hb; subst hb
        exact ih.1 a ha
  | del _ _ => exact ⟨by intro row hr; simp [truncateLogs] at hr, by simp [truncateLogs]⟩

theorem insertDesc_of_lt (x : LogRow) :
    ∀ (l : List LogRow), (∀ y ∈ l, ¬x.id ≥ y.id) → insertDesc x l = l ++ [x] := by
  intro l
  induction l with
  | nil => intro _; rfl
  | cons y ys ih =>
      intro h
      unfold insertDesc
      rw [if_neg (h y (List.mem_cons_self y ys))]
      rw [ih (fun z hz => h z (List.mem_cons_of_mem y hz))]
      simp

/-- Sorting a strictly-increasing-id row list by descending id reverses it. -/
theorem orderByIdDesc_of_increasing :
    ∀ (l : List LogRow), List.Pairwise (fun a b => a.id < b.id) l →
      orderByIdDesc l = l.reverse := by
  intro l
  induction l with
  | nil => intro _; rfl
  | cons x xs ih =>
      intro h
      have hx := (List.pairwise_cons.mp h).1
      have htail := (List.pairwise_cons.mp h).2
      unfold orderByIdDesc
      rw [ih htail]
      rw [insertDesc_of_lt x]
      · simp
      · intro y hy
        have := hx y (List.mem_reverse.mp hy)
        omega

theorem perm_insertDesc (x : LogRow) :
    ∀ (l : List LogRow), (insertDesc x l).Perm (x :: l) := by
  intro l
  induction l with
  | nil => exact List.Perm.refl _
  | cons y ys ih =>
      unfold insertDesc
      by_cases h : x.id ≥ y.id
      · rw [if_pos h]
      · rw [if_neg h]
        exact (List.Perm.cons y ih).trans (List.Perm.swap x y ys)

theorem perm_orderByIdDesc : ∀ (l : List LogRow), (orderByIdDesc l).Perm l := by
  intro l
  induction l with
  | nil => exact List.Perm.refl _
  | cons x xs ih =>
      unfold orderByIdDesc
      exact (perm_insertDesc x (orderByIdDesc xs)).trans (List.Perm.cons x ih)

/-- C9: a successful GET of /api/paths returns all stored rows sorted by id
in strictly descending order, the most recently inserted row first. -/
theorem claim_C9_get_sorted_desc (db : DBState) (h : ReachDB db) :
    getPathsHandler db none = GetResp.ok db.rows.reverse ∧
    (orderByIdDesc db.rows).Perm db.rows ∧
    List.Pairwise (fun a b => b.id < a.id) (orderByIdDesc db.rows) ∧
    (orderByIdDesc db.rows).head? = db.rows.getLast? := by
  have hinv := reachDB_inv h
  have hrev := orderByIdDesc_of_increasing db.rows hinv.2
  refine ⟨?_, perm_orderByIdDesc db.rows, ?_, ?_⟩
  · unfold getPathsHandler
    rw [hrev]
  · rw [hrev]
    exact List.pairwise_reverse.mpr hinv.2
  · rw [hrev]
    exact List.head?_reverse db.rows

/-- Witness for C9: a database built by two inserts. -/
theorem claim_C9_witness :
    getPathsHandler (insertLog (insertLog initialDB recSG) recSG) none =
      GetResp.ok (insertLog (insertLog initialDB recSG) recSG).rows.reverse :=
  (claim_C9_get_sorted_desc _ (ReachDB.post recSG (ReachDB.post recSG ReachDB.init))).1

/-- C10: a successful DELETE of /api/paths unconditionally removes every
stored row (for every database state, no filtering) and answers
"Logs cleared."; that message appears exactly when the truncation succeeded,
and on failure the response is status 500 carrying the error body with no
success message. -/
theorem claim_C10_delete_clears (db : DBState) (err : Option String) :
    (err = none →
      (deletePaths db err).1.rows = [] ∧
      (deletePaths db err).2 = DelResp.okMsg "Logs cleared.") ∧
    (∀ e, err = some e →
      (deletePaths db err).2 = DelResp.errorStatus 500 e ∧
      ∀ m, (deletePaths db err).2 ≠ DelResp.okMsg m) ∧
    ((deletePaths db err).2 = DelResp.okMsg "Logs cleared." ↔ err = none) := by
  cases err with
  | none => simp [deletePaths, truncateLogs]
  | some e => simp [deletePaths]

/-- Witness for C10 on a non-empty database. -/
theorem claim_C10_witness :
    (deletePaths (insertLog initialDB recSG) none).1.rows = [] ∧
    (deletePaths (insertLog initialDB recSG) none).2 = DelResp.okMsg "Logs cleared." :=
  (claim_C10_delete_clears (insertLog initialDB recSG) none).1 rfl

/-! ## Grid graph layer (spec sections 4.1-4.2)

The algorithms of `utils/pathfinding` are not part of the repository
snapshot; everything from here on is modelled from the specification: the
grid-model contract (`isTraversable` true iff in bounds and the cell role is
not obstacle), 4-connected neighbour generation in the fixed order up, down,
left, right, and path reconstruction by walking predecessors.  The grid type
is the client grid (a cell is traversable when its tag list lacks the
obstacle tag), matching the snapshot the client hands to `algoFunc`. -/

/-- `isTraversable` (spec 4.1), Boolean form: in bounds and not an obstacle;
out-of-range probes yield a defined "not traversable" answer. -/
def traversableB (g : AppGrid) (p : Coord) : Bool :=
  match g[p.1]? with
  | none => false
  | some row =>
      match row[p.2]? with
      | none => false
      | some cell => !(decide (Tag.obstacle ∈ cell))

/-- `isTraversable` as a proposition. -/
def traversable (g : AppGrid) (p : Coord) : Prop := traversableB g p = true

instance (g : AppGrid) (p : Coord) : Decidable (traversable g p) :=
  decidable_of_iff (traversableB g p = true) Iff.rfl

theorem traversable_iff {g : AppGrid} {p : Coord} :
    traversable g p ↔ ∃ row cell, g[p.1]? = some row ∧ row[p.2]? = some cell ∧
      Tag.obstacle ∉ cell := by
  unfold traversable traversableB
  rcases hrow : g[p.1]? with _ | row
  · simp [hrow]
  · rcases hcell : row[p.2]? with _ | cell
    · simp [hrow, hcell]
    · simp [hrow, hcell]

/-- Fixed-order (up, down, left, right) 4-connected neighbour generation
(spec 4.2); moves off the top or left edge are not generated. -/
def nbrs (p : Coord) : List Coord :=
  (if 0 < p.1 then [(p.1 - 1, p.2)] else []) ++ [(p.1 + 1, p.2)] ++
    (if 0 < p.2 then [(p.1, p.2 - 1)] else []) ++ [(p.1, p.2 + 1)]

/-- 4-connectedness: the two coordinates differ by one in exactly one
component. -/
def Adj (p q : Coord) : Prop :=
  (p.1 = q.1 ∧ (p.2 = q.2 + 1 ∨ q.2 = p.2 + 1)) ∨
    (p.2 = q.2 ∧ (p.1 = q.1 + 1 ∨ q.1 = p.1 + 1))

instance (p q : Coord) : Decidable (Adj p q) :=
  decidable_of_iff ((p.1 = q.1 ∧ (p.2 = q.2 + 1 ∨ q.2 = p.2 + 1)) ∨
    (p.2 = q.2 ∧ (p.1 = q.1 + 1 ∨ q.1 = p.1 + 1))) Iff.rfl

theorem mem_nbrs {p q : Coord} : q ∈ nbrs p ↔ Adj p q := by
  unfold nbrs Adj
  rcases p with ⟨pr, pc⟩
  rcases q with ⟨qr, qc⟩
  by_cases h1 : 0 < pr <;> by_cases h2 : 0 < pc <;>
    simp [h1, h2, Prod.ext_iff] <;> omega

theorem nbrs_nodup (p : Coord) : (nbrs p).Nodup := by
  unfold nbrs
  rcases p with ⟨pr, pc⟩
  by_cases h1 : 0 < pr <;> by_cases h2 : 0 < pc <;>
    simp [h1, h2, Prod.ext_iff] <;> omega

/-- Walks in the grid graph: non-empty coordinate sequences, consecutive
entries adjacent, every entry traversable. -/
def IsWalk (g : AppGrid) (l : List Coord) : Prop :=
  l ≠ [] ∧ l.Chain' Adj ∧ ∀ p ∈ l, traversable g p

/-- A walk from `s` to `t`. -/
def WalkFrom (g : AppGrid) (s t : Coord) (l : List Coord) : Prop :=
  IsWalk g l ∧ l.head? = some s ∧ l.getLast? = some t

instance (g : AppGrid) (l : List Coord) : Decidable (IsWalk g l) :=
  decidable_of_iff (l ≠ [] ∧ l.Chain' Adj ∧ ∀ p ∈ l, traversable g p) Iff.rfl

/-- Boolean chain check for adjacency, kernel-reducible. -/
def chainAdjB : List Coord → Bool
  | [] => true
  | _ :: [] => true
  | p :: q :: rest => decide (Adj p q) && chainAdjB (q :: rest)

theorem chainAdjB_iff : ∀ {l : List Coord}, chainAdjB l = true ↔ List.Chain' Adj l := by
  intro l
  induction l with
  | nil => simp [chainAdjB]
  | cons p rest ih =>
      cases rest with
      | nil => simp [chainAdjB]
      | cons q rest2 =>
          have hstep : chainAdjB (p :: q :: rest2) =
              (decide (Adj p q) && chainAdjB (q :: rest2)) := rfl
          rw [hstep, List.chain'_cons]
          constructor
          · intro hh
            have hh2 : decide (Adj p q) = true ∧ chainAdjB (q :: rest2) = true := by
              simpa using hh
            exact ⟨of_decide_eq_true hh2.1, ih.mp hh2.2⟩
          · intro hh
            have h1 : decide (Adj p q) = true := decide_eq_true hh.1
            simp [h1, ih.mpr hh.2]

/-- Boolean form of `WalkFrom`, kernel-reducible. -/
def walkFromB (g : AppGrid) (s t : Coord) (l : List Coord) : Bool :=
  decide (l ≠ []) && chainAdjB l && l.all (fun p => traversableB g p) &&
    decide (l.head? = some s) && decide (l.getLast? = some t)

instance (g : AppGrid) (s t : Coord) (l : List Coord) : Decidable (WalkFrom g s t l) :=
  decidable_of_iff (walkFromB g s t l = true) (by
    unfold walkFromB WalkFrom IsWalk
    simp only [Bool.and_eq_true, decide_eq_true_eq, chainAdjB_iff, List.all_eq_true]
    constructor
    · intro h
      exact ⟨⟨h.1.1.1.1, h.1.1.1.2, fun p hp => h.1.1.2 p hp⟩, h.1.2, h.2⟩
    · intro h
      exact ⟨⟨⟨⟨h.1.1, h.1.2.1⟩, fun p hp => h.1.2.2 p hp⟩, h.2.1⟩, h.2.2⟩)

/-- Reachability of `t` from `s` in the grid graph. -/
def Reachable (g : AppGrid) (s t : Coord) : Prop := ∃ l, WalkFrom g s t l

/-- The true shortest-path edge count between two coordinates: the least
number of edges over all walks (a walk of n+1 coordinates has n edges). -/
noncomputable def sdist (g : AppGrid) (s t : Coord) : Nat :=
  sInf {n | ∃ l, WalkFrom g s t l ∧ l.length = n + 1}

theorem walkFrom_length_pos {g : AppGrid} {s t : Coord} {l : List Coord}
    (h : WalkFrom g s t l) : 0 < l.length :=
  List.length_pos.mpr h.1.1

theorem sdist_le {g : AppGrid} {s t : Coord} {l : List Coord}
    (h : WalkFrom g s t l) : sdist g s t ≤ l.length - 1 := by
  apply Nat.sInf_le
  exact ⟨l, h, by have := walkFrom_length_pos h; omega⟩

theorem sdist_spec {g : AppGrid} {s t : Coord} (h : Reachable g s t) :
    ∃ l, WalkFrom g s t l ∧ l.length = sdist g s t + 1 := by
  rcases h with ⟨l, hl⟩
  have hne : {n | ∃ l, WalkFrom g s t l ∧ l.length = n + 1}.Nonempty :=
    ⟨l.length - 1, l, hl, by have := walkFrom_length_pos hl; omega⟩
  exact Nat.sInf_mem hne

theorem walkFrom_singleton {g : AppGrid} {s : Coord} (h : traversable g s) :
    WalkFrom g s s [s] := by
  refine ⟨⟨by simp, by simp, ?_⟩, rfl, rfl⟩
  intro p hp
  simp at hp
  subst hp
  exact h

theorem reachable_traversable {g : AppGrid} {s t : Coord} (h : Reachable g s t) :
    traversable g s ∧ traversable g t := by
  rcases h with ⟨l, ⟨⟨hne, _, htrav⟩, hhead, hlast⟩⟩
  constructor
  · exact htrav s (List.mem_of_mem_head? hhead)
  · exact htrav t (List.mem_of_mem_getLast? hlast)

theorem sdist_self {g : AppGrid} {s : Coord} (h : traversable g s) :
    sdist g s s = 0 := by
  have := sdist_le (walkFrom_singleton h)
  simpa using this

theorem head?_append_left {α : Type} (l l' : List α) (h : l ≠ []) :
    (l ++ l').head? = l.head? := by
  cases l with
  | nil => exact absurd rfl h
  | cons x xs => rfl

theorem walk_extend {g : AppGrid} {s u w : Coord} {l : List Coord}
    (h : WalkFrom g s u l) (ha : Adj u w) (ht : traversable g w) :
    WalkFrom g s w (l ++ [w]) := by
  rcases h with ⟨⟨hne, hchain, htrav⟩, hhead, hlast⟩
  refine ⟨⟨by simp, ?_, ?_⟩, ?_, ?_⟩
  · rw [List.chain'_append]
    refine ⟨hchain, by simp, ?_⟩
    intro x hx y hy
    simp at hy
    subst hy
    rw [hlast] at hx
    simp at hx
    subst hx
    exact ha
  · intro p hp
    rcases List.mem_append.mp hp with h2 | h2
    · exact htrav p h2
    · simp at h2; subst h2; exact ht
  · rw [head?_append_left _ _ hne]; exact hhead
  · simp
theorem sdist_step {g : AppGrid} {s u w : Coord} (h : Reachable g s u)
    (ha : Adj u w) (ht : traversable g w) :
    Reachable g s w ∧ sdist g s w ≤ sdist g s u + 1 := by
  rcases sdist_spec h with ⟨l, hl, hlen⟩
  have hw := walk_extend hl ha ht
  refine ⟨⟨_, hw⟩, ?_⟩
  have := sdist_le hw
  rw [List.length_append, hlen] at this
  simpa using this

/-- Decomposition of a positive shortest distance: a predecessor on a
shortest walk one edge closer to the source. -/
theorem sdist_decompose {g : AppGrid} {s v : Coord} {d : Nat}
    (h : Reachable g s v) (hd : sdist g s v = d + 1) :
    ∃ u, Adj u v ∧ Reachable g s u ∧ sdist g s u = d := by
  rcases sdist_spec h with ⟨l, hl, hlen⟩
  rcases hl with ⟨⟨hne, hchain, htrav⟩, hhead, hlast⟩
  have hlen2 : l.length = d + 2 := by omega
  -- split the walk into its initial part and the final coordinate v
  have hsplit : l.dropLast ++ [l.getLast hne] = l := List.dropLast_append_getLast hne
  have hvlast : l.getLast hne = v := by
    have := List.getLast?_eq_getLast l hne
    rw [this] at hlast
    exact Option.some.inj hlast
  set l' := l.dropLast with hl'
  have hl'len : l'.length = d + 1 := by
    rw [hl', List.length_dropLast, hlen2]
    omega
  have hl'ne : l' ≠ [] := by
    intro h0
    rw [h0] at hl'len
    simp at hl'len
  set u := l'.getLast hl'ne with hu
  have hchain' : List.Chain' Adj (l' ++ [v]) := by
    rw [← hvlast, hsplit]; exact hchain
  have hadj : Adj u v := by
    rcases List.chain'_append.mp hchain' with ⟨_, _, hmid⟩
    apply hmid u _ v
    · simp
    · rw [List.getLast?_eq_getLast l' hl'ne]
      rfl
  have hwalk' : WalkFrom g s u l' := by
    refine ⟨⟨hl'ne, ?_, ?_⟩, ?_, ?_⟩
    · exact (List.chain'_append.mp hchain').1
    · intro p hp
      apply htrav
      rw [← hsplit]
      exact List.mem_append.mpr (Or.inl hp)
    · rw [← head?_append_left l' [v] hl'ne, ← hvlast, hsplit]
      exact hhead
    · rw [List.getLast?_eq_getLast l' hl'ne]
  refine ⟨u, hadj, ⟨l', hwalk'⟩, ?_⟩
  have hle : sdist g s u ≤ d := by
    have := sdist_le hwalk'
    omega
  rcases Nat.lt_or_ge (sdist g s u) d with hlt | hge
  · exfalso
    rcases sdist_spec ⟨l', hwalk'⟩ with ⟨m, hm, hmlen⟩
    have hvtrav : traversable g v := by
      apply htrav
      exact List.mem_of_mem_getLast? hlast
    have hext := walk_extend hm hadj hvtrav
    have := sdist_le hext
    rw [List.length_append, hmlen] at this
    simp at this
    omega
  · omega

/-- Reachability with shortest distance zero pins the target to the source. -/
theorem sdist_zero_eq {g : AppGrid} {s v : Coord} (h : Reachable g s v)
    (hd : sdist g s v = 0) : v = s := by
  rcases sdist_spec h with ⟨l, hl, hlen⟩
  rw [hd] at hlen
  rcases l with _ | ⟨x, xs⟩
  · simp at hlen
  · rcases xs with _ | ⟨y, ys⟩
    · rcases hl with ⟨_, hhead, hlast⟩
      simp at hhead hlast
      rw [← hhead, ← hlast]
    · simp at hlen

/-- Manhattan distance, the A* heuristic (spec 4.6). -/
def manhattan (a b : Coord) : Nat :=
  (a.1 - b.1) + (b.1 - a.1) + (a.2 - b.2) + (b.2 - a.2)

/-- Consistency of the Manhattan heuristic on the 4-connected unit-cost
grid: along any edge it decreases by at most one. -/
theorem manhattan_consistent {a b t : Coord} (h : Adj a b) :
    manhattan a t ≤ manhattan b t + 1 := by
  unfold manhattan
  unfold Adj at h
  rcases h with ⟨h1, h2 | h2⟩ | ⟨h1, h2 | h2⟩ <;> omega

/-! ## Discovery maps and path reconstruction (spec 4.2)

Each algorithm run keeps, per discovered coordinate, its accumulated
cost/depth and its predecessor (none for the source).  We embed the map as
an association list. -/

/-- Discovery map: coordinate to (cost, predecessor). -/
abbrev Dmap := List (Coord × (Nat × Option Coord))

/-- Association-list lookup. -/
def dmFind : Dmap → Coord → Option (Nat × Option Coord)
  | [], _ => none
  | (k, val) :: rest, c => if k = c then some val else dmFind rest c

/-- The keys of a discovery map. -/
def dmKeys (D : Dmap) : List Coord := D.map Prod.fst

/-- Replace the value at a present key (first occurrence). -/
def dmSet : Dmap → Coord → (Nat × Option Coord) → Dmap
  | [], _, _ => []
  | (k, val) :: rest, c, v =>
      if k = c then (k, v) :: rest else (k, val) :: dmSet rest c v

theorem dmFind_eq_none {D : Dmap} {c : Coord} :
    dmFind D c = none ↔ c ∉ dmKeys D := by
  induction D with
  | nil => simp [dmFind, dmKeys]
  | cons e rest ih =>
      rcases e with ⟨k, val⟩
      show (if k = c then some val else dmFind rest c) = none ↔ c ∉ dmKeys ((k, val) :: rest)
      have hkeys : dmKeys ((k, val) :: rest) = k :: dmKeys rest := rfl
      rw [hkeys]
      by_cases h : k = c
      · subst h
        simp
      · rw [if_neg h, ih]
        constructor
        · intro hnc hmem
          rcases List.mem_cons.mp hmem with he | he
          · exact h he.symm
          · exact hnc he
        · intro hnc hmem
          exact hnc (List.mem_cons_of_mem _ hmem)

theorem dmFind_isSome {D : Dmap} {c : Coord} :
    (dmFind D c).isSome ↔ c ∈ dmKeys D := by
  rcases h : dmFind D c with _ | v
  · simp [dmFind_eq_none.mp h]
  · simp
    have : ¬dmFind D c = none := by rw [h]; simp
    rw [dmFind_eq_none] at this
    exact Decidable.not_not.mp this

theorem dmFind_append {D E : Dmap} {c : Coord} :
    dmFind (D ++ E) c =
      match dmFind D c with
      | some v => some v
      | none => dmFind E c := by
  induction D with
  | nil => simp [dmFind]
  | cons e rest ih =>
      rcases e with ⟨k, val⟩
      by_cases h : k = c
      · subst h; simp [dmFind]
      · simp [dmFind, h, ih]

theorem dmFind_append_left {D E : Dmap} {c : Coord} {v : Nat × Option Coord}
    (h : dmFind D c = some v) : dmFind (D ++ E) c = some v := by
  rw [dmFind_append, h]

theorem dmFind_append_right {D E : Dmap} {c : Coord}
    (h : dmFind D c = none) : dmFind (D ++ E) c = dmFind E c := by
  rw [dmFind_append, h]

theorem dmKeys_append (D E : Dmap) : dmKeys (D ++ E) = dmKeys D ++ dmKeys E := by
  simp [dmKeys]

theorem dmFind_dmSet_self {D : Dmap} {c : Coord} (v : Nat × Option Coord)
    (h : c ∈ dmKeys D) : dmFind (dmSet D c v) c = some v := by
  induction D with
  | nil => simp [dmKeys] at h
  | cons e rest ih =>
      rcases e with ⟨k, val⟩
      by_cases hk : k = c
      · subst hk; simp [dmSet, dmFind]
      · simp [dmSet, dmFind, hk]
        apply ih
        simp [dmKeys] at h
        rcases h with h | h
        · exact absurd h.symm hk
        · simp [dmKeys]; exact h

theorem dmFind_dmSet_ne {D : Dmap} {c c' : Coord} (v : Nat × Option Coord)
    (h : c ≠ c') : dmFind (dmSet D c v) c' = dmFind D c' := by
  induction D with
  | nil => simp [dmSet]
  | cons e rest ih =>
      rcases e with ⟨k, val⟩
      by_cases hk : k = c
      · subst hk
        simp [dmSet, dmFind, h]
      · simp [dmSet, dmFind, hk, ih]

theorem dmKeys_dmSet (D : Dmap) (c : Coord) (v : Nat × Option Coord) :
    dmKeys (dmSet D c v) = dmKeys D := by
  induction D with
  | nil => simp [dmSet]
  | cons e rest ih =>
      rcases e with ⟨k, val⟩
      by_cases hk : k = c
      · subst hk; simp [dmSet, dmKeys]
      · simp [dmSet, dmKeys, hk]
        simpa [dmKeys] using ih

/-- Well-formed parent structure: every discovered entry is traversable; a
parentless entry is the source at cost 0; a parented entry is adjacent to
its parent, which is discovered at cost one less. -/
def PWF (g : AppGrid) (s : Coord) (D : Dmap) : Prop :=
  ∀ v d po, dmFind D v = some (d, po) →
    traversable g v ∧ (po = none → v = s ∧ d = 0) ∧
      (∀ p, po = some p → Adj p v ∧ ∃ dp pp, dmFind D p = some (dp, pp) ∧ d = dp + 1)

/-- Path reconstruction (spec 4.2): walk predecessors back from the target;
the cost of the target bounds the walk length. -/
def chainPath (D : Dmap) : Nat → Coord → List Coord
  | 0, v => [v]
  | fuel + 1, v =>
      match dmFind D v with
      | some (_, some p) => chainPath D fuel p ++ [v]
      | _ => [v]

theorem chainPath_succ (D : Dmap) (n : Nat) (v : Coord) :
    chainPath D (n + 1) v =
      match dmFind D v with
      | some (_, some p) => chainPath D n p ++ [v]
      | _ => [v] := rfl

/-- Under `PWF`, reconstruction from a discovered coordinate of cost `d`
yields a walk from the source of exactly `d` edges. -/
theorem chainPath_walk {g : AppGrid} {s : Coord} {D : Dmap} (hpwf : PWF g s D) :
    ∀ d (v : Coord) (po : Option Coord), dmFind D v = some (d, po) →
      WalkFrom g s v (chainPath D d v) ∧ (chainPath D d v).length = d + 1 := by
  intro d
  induction d using Nat.strong_induction_on with
  | _ d ih =>
      intro v po hfind
      rcases hpwf v d po hfind with ⟨htrav, hnone, hsome⟩
      cases po with
      | none =>
          rcases hnone rfl with ⟨hv, hd⟩
          subst hv; subst hd
          exact ⟨walkFrom_singleton htrav, by simp [chainPath]⟩
      | some p =>
          rcases hsome p rfl with ⟨hadj, dp, pp, hfp, hdp⟩
          cases d with
          | zero => omega
          | succ n =>
              have hdpn : dp = n := by omega
              subst hdpn
              have hstep : chainPath D (dp + 1) v = chainPath D dp p ++ [v] := by
                rw [chainPath_succ, hfind]
              rcases ih dp (by omega) p pp hfp with ⟨hwalk, hlen⟩
              rw [hstep]
              exact ⟨walk_extend hwalk hadj htrav, by simp [hlen]⟩

/-! ## Breadth-first search (spec 4.3) -/

/-- All in-range coordinates of the grid, the finite universe any search
ranges over. -/
def allPairs (g : AppGrid) : List Coord :=
  (List.range g.length).flatMap
    (fun r => (List.range (g.getD r []).length).map (fun c => (r, c)))

theorem mem_allPairs {g : AppGrid} {p : Coord} :
    p ∈ allPairs g ↔ p.1 < g.length ∧ p.2 < (g.getD p.1 []).length := by
  unfold allPairs
  constructor
  · intro h
    simp only [List.mem_flatMap, List.mem_map, List.mem_range] at h
    rcases h with ⟨r, hr, c, hc, hp⟩
    subst hp
    exact ⟨hr, hc⟩
  · intro ⟨h1, h2⟩
    simp only [List.mem_flatMap, List.mem_map, List.mem_range]
    exact ⟨p.1, h1, p.2, h2, rfl⟩

theorem allPairs_nodup (g : AppGrid) : (allPairs g).Nodup := by
  unfold allPairs
  apply List.nodup_flatMap.mpr
  constructor
  · intro r _
    apply List.Nodup.map
    · intro a b hab
      exact ((Prod.mk.injEq _ _ _ _).mp hab).2
    · exact List.nodup_range _
  · apply List.Pairwise.imp ?_ (List.pairwise_lt_range _)
    intro a b hab
    intro p hpa hpb
    simp only [List.mem_map, List.mem_range] at hpa hpb
    rcases hpa with ⟨c1, _, hp1⟩
    rcases hpb with ⟨c2, _, hp2⟩
    rw [← hp1] at hp2
    have : a = b := ((Prod.mk.injEq _ _ _ _).mp hp2).1.symm
    omega

theorem traversable_mem_allPairs {g : AppGrid} {p : Coord}
    (h : traversable g p) : p ∈ allPairs g := by
  rcases traversable_iff.mp h with ⟨row, cell, hrow, hcell, _⟩
  apply mem_allPairs.mpr
  have h1 : p.1 < g.length := by
    rcases List.getElem?_eq_some_iff.mp hrow with ⟨hlt, _⟩
    exact hlt
  have hrow2 : g.getD p.1 [] = row := by
    rcases List.getElem?_eq_some_iff.mp hrow with ⟨hlt, he⟩
    rw [List.getD_eq_getElem g [] hlt, he]
  have h2 : p.2 < row.length := by
    rcases List.getElem?_eq_some_iff.mp hcell with ⟨hlt, _⟩
    exact hlt
  rw [hrow2]
  exact ⟨h1, h2⟩

/-- The depth/cost a discovery map records for a coordinate (0 if absent). -/
def dep (D : Dmap) (v : Coord) : Nat :=
  match dmFind D v with
  | some (d, _) => d
  | none => 0

/-- BFS main loop, modelled from spec 4.3: a FIFO frontier seeded with the
start; dequeue the front coordinate, succeed when it is the goal, otherwise
enqueue its traversable, undiscovered neighbours in the fixed order,
recording predecessor and depth at discovery time (the map also serves as
the visited/discovered set, so no coordinate is ever enqueued twice); `vo`
accumulates the dequeue order (`visitedOrder`).  The fuel argument only
forces structural termination; the correctness theorem shows the initial
fuel is never exhausted.  `some (found, map, visitedOrder)` reports whether
the goal was dequeued (frontier exhaustion gives `found = false`). -/
def bfsLoop (g : AppGrid) (t : Coord) :
    Nat → List Coord → Dmap → List Coord → Option (Bool × Dmap × List Coord)
  | 0, _, _, _ => none
  | _ + 1, [], D, vo => some (false, D, vo)
  | fuel + 1, v :: qs, D, vo =>
      if v = t then some (true, D, vo ++ [v])
      else
        let ns := (nbrs v).filter (fun w => traversableB g w && (dmFind D w).isNone)
        bfsLoop g t fuel (qs ++ ns)
          (D ++ ns.map (fun w => (w, (dep D v + 1, some v)))) (vo ++ [v])

theorem bfsLoop_cons (g : AppGrid) (t : Coord) (fuel : Nat) (v : Coord)
    (qs : List Coord) (D : Dmap) (vo : List Coord) :
    bfsLoop g t (fuel + 1) (v :: qs) D vo =
      if v = t then some (true, D, vo ++ [v])
      else
        bfsLoop g t fuel
          (qs ++ (nbrs v).filter (fun w => traversableB g w && (dmFind D w).isNone))
          (D ++ ((nbrs v).filter
              (fun w => traversableB g w && (dmFind D w).isNone)).map
            (fun w => (w, (dep D v + 1, some v))))
          (vo ++ [v]) := rfl

/-- `bfs` (spec 4.3): run the loop from the seeded frontier; on success
reconstruct the path from the goal's recorded depth, otherwise the path is
empty. -/
def bfs (g : AppGrid) (s t : Coord) : SearchResult :=
  match bfsLoop g t ((allPairs g).length + 2) [s] [(s, (0, none))] [] with
  | some (true, D, vo) =>
      { path :=
          match dmFind D t with
          | some (dt, _) => chainPath D dt t
          | none => []
        visitedOrder := vo }
  | some (false, _, vo) => { path := [], visitedOrder := vo }
  | none => { path := [], visitedOrder := [] }

theorem dmFind_some_mem_keys {D : Dmap} {c : Coord} {v : Nat × Option Coord}
    (h : dmFind D c = some v) : c ∈ dmKeys D := by
  by_contra hc
  rw [← dmFind_eq_none] at hc
  rw [h] at hc
  cases hc

theorem dmFind_dep {D : Dmap} {v : Coord} (h : v ∈ dmKeys D) :
    ∃ po, dmFind D v = some (dep D v, po) := by
  rcases h2 : dmFind D v with _ | val
  · exact absurd (dmFind_eq_none.mp h2) (by simpa using h)
  · rcases val with ⟨d, po⟩
    exact ⟨po, by unfold dep; rw [h2]⟩

theorem dmFind_constMap {l : List Coord} {c : Nat × Option Coord} {w : Coord}
    (hw : w ∈ l) : dmFind (l.map (fun x => (x, c))) w = some c := by
  induction l with
  | nil => simp at hw
  | cons x xs ih =>
      by_cases hx : x = w
      · subst hx; simp [dmFind]
      · rcases List.mem_cons.mp hw with he | he
        · exact absurd he.symm hx
        · simp [dmFind, hx]
          exact ih he

theorem pairwise_dep_transfer {f f' : Coord → Nat} {l : List Coord}
    (h : ∀ x ∈ l, f' x = f x)
    (hp : List.Pairwise (fun a b => f a ≤ f b) l) :
    List.Pairwise (fun a b => f' a ≤ f' b) l := by
  induction l with
  | nil => exact List.Pairwise.nil
  | cons x xs ih =>
      rcases List.pairwise_cons.mp hp with ⟨hx, hxs⟩
      refine List.pairwise_cons.mpr ⟨?_, ?_⟩
      · intro b hb
        rw [h x (List.mem_cons_self x xs), h b (List.mem_cons_of_mem x hb)]
        exact hx b hb
      · exact ih (fun y hy => h y (List.mem_cons_of_mem x hy)) hxs

/-- Invariant of the BFS loop state.  `q` is the FIFO frontier, `D` the
discovery map.  Coordinates discovered but no longer enqueued are processed
(fully expanded). -/
structure BfsInv (g : AppGrid) (s t : Coord) (q : List Coord) (D : Dmap) : Prop where
  nodupKeys : (dmKeys D).Nodup
  source : dmFind D s = some (0, none)
  pwf : PWF g s D
  qmem : ∀ v ∈ q, v ∈ dmKeys D
  sorted : List.Pairwise (fun a b => dep D a ≤ dep D b) q
  twoLayer : ∀ u ∈ q, ∀ w ∈ q, dep D w ≤ dep D u + 1
  procLe : ∀ u, u ∈ dmKeys D → u ∉ q → ∀ w ∈ q, dep D u ≤ dep D w
  procExact : ∀ u, u ∈ dmKeys D → u ∉ q → dep D u = sdist g s u
  procNbrs : ∀ u, u ∈ dmKeys D → u ∉ q → ∀ w, Adj u w → traversable g w →
      w ∈ dmKeys D ∧ dep D w ≤ dep D u + 1
  goalQueued : t ∈ dmKeys D → t ∈ q

/-- Every discovered coordinate is reachable, at true distance at most its
recorded depth (its parent chain is a walk). -/
theorem bfs_disc_sound {g : AppGrid} {s : Coord} {D : Dmap} (hpwf : PWF g s D)
    {v : Coord} (hv : v ∈ dmKeys D) :
    Reachable g s v ∧ sdist g s v ≤ dep D v := by
  rcases dmFind_dep hv with ⟨po, hfind⟩
  rcases chainPath_walk hpwf (dep D v) v po hfind with ⟨hwalk, hlen⟩
  refine ⟨⟨_, hwalk⟩, ?_⟩
  have := sdist_le hwalk
  omega

/-- Frontier bound: any reachable, not-yet-processed coordinate at distance
`d` forces a frontier member of depth at most `d`. -/
theorem bfs_frontier_bound {g : AppGrid} {s t : Coord} {q : List Coord} {D : Dmap}
    (inv : BfsInv g s t q D) :
    ∀ d (v : Coord), Reachable g s v → sdist g s v = d →
      (v ∉ dmKeys D ∨ v ∈ q) → ∃ w ∈ q, dep D w ≤ d := by
  intro d
  induction d using Nat.strong_induction_on with
  | _ d ih =>
      intro v hreach hd hunproc
      cases d with
      | zero =>
          have hv : v = s := sdist_zero_eq hreach hd
          subst hv
          have hsk : v ∈ dmKeys D := dmFind_some_mem_keys inv.source
          have hq : v ∈ q := by
            rcases hunproc with h | h
            · exact absurd hsk h
            · exact h
          refine ⟨v, hq, ?_⟩
          unfold dep
          rw [inv.source]
      | succ k =>
          rcases sdist_decompose hreach hd with ⟨u, hadj, hureach, hud⟩
          by_cases hu : u ∈ dmKeys D ∧ u ∉ q
          · have hexact := inv.procExact u hu.1 hu.2
            have hnb := inv.procNbrs u hu.1 hu.2 v hadj
              (reachable_traversable hreach).2
            have hvq : v ∈ q := by
              rcases hunproc with h | h
              · exact absurd hnb.1 h
              · exact h
            refine ⟨v, hvq, ?_⟩
            have := hnb.2
            rw [hexact, hud] at this
            omega
          · have hu2 : u ∉ dmKeys D ∨ u ∈ q := by
              by_cases h1 : u ∈ dmKeys D
              · right
                by_contra h2
                exact hu ⟨h1, h2⟩
              · left; exact h1
            rcases ih k (by omega) u hureach hud hu2 with ⟨w, hw, hwd⟩
            exact ⟨w, hw, by omega⟩

/-- When a coordinate is dequeued its recorded depth is the true shortest
distance. -/
theorem bfs_head_exact {g : AppGrid} {s t v : Coord} {qs : List Coord} {D : Dmap}
    (inv : BfsInv g s t (v :: qs) D) : dep D v = sdist g s v := by
  have hvk := inv.qmem v (List.mem_cons_self v qs)
  have hsound := bfs_disc_sound inv.pwf hvk
  rcases bfs_frontier_bound inv (sdist g s v) v hsound.1 rfl
      (Or.inr (List.mem_cons_self v qs)) with ⟨w, hwq, hwd⟩
  have hvw : dep D v ≤ dep D w := by
    rcases List.mem_cons.mp hwq with he | he
    · subst he; exact Nat.le_refl _
    · exact (List.pairwise_cons.mp inv.sorted).1 w he
  have := hsound.2
  omega

/-- Expanding the dequeued head preserves the BFS invariant. -/
theorem bfs_inv_step {g : AppGrid} {s t v : Coord} {qs : List Coord} {D : Dmap}
    (inv : BfsInv g s t (v :: qs) D) (hvt : v ≠ t) :
    BfsInv g s t
      (qs ++ (nbrs v).filter (fun w => traversableB g w && (dmFind D w).isNone))
      (D ++ ((nbrs v).filter (fun w => traversableB g w && (dmFind D w).isNone)).map
        (fun w => (w, (dep D v + 1, some v)))) := by
  set ns := (nbrs v).filter (fun w => traversableB g w && (dmFind D w).isNone) with hns
  set E := ns.map (fun w => (w, (dep D v + 1, some v))) with hE
  have hns_mem : ∀ w ∈ ns, Adj v w ∧ traversable g w ∧ dmFind D w = none := by
    intro w hw
    rcases List.mem_filter.mp hw with ⟨h1, h2⟩
    have h34 : traversableB g w = true ∧ (dmFind D w).isNone = true := by
      simpa using h2
    exact ⟨mem_nbrs.mp h1, h34.1, Option.isNone_iff_eq_none.mp h34.2⟩
  have hdisj : ∀ w ∈ ns, w ∉ dmKeys D := by
    intro w hw
    exact dmFind_eq_none.mp (hns_mem w hw).2.2
  have hns_nodup : ns.Nodup := (nbrs_nodup v).filter _
  have hkeysE : dmKeys E = ns := by
    rw [hE]
    unfold dmKeys
    rw [List.map_map]
    exact List.map_id ns
  have hkeys' : dmKeys (D ++ E) = dmKeys D ++ ns := by
    rw [dmKeys_append, hkeysE]
  have hold : ∀ x ∈ dmKeys D, dmFind (D ++ E) x = dmFind D x := by
    intro x hx
    rcases dmFind_dep hx with ⟨po, hfind⟩
    rw [dmFind_append_left hfind, hfind]
  have hnew : ∀ w ∈ ns, dmFind (D ++ E) w = some (dep D v + 1, some v) := by
    intro w hw
    rw [dmFind_append_right (hns_mem w hw).2.2, hE]
    exact dmFind_constMap hw
  have hdepold : ∀ x ∈ dmKeys D, dep (D ++ E) x = dep D x := by
    intro x hx
    unfold dep
    rw [hold x hx]
  have hdepnew : ∀ w ∈ ns, dep (D ++ E) w = dep D v + 1 := by
    intro w hw
    unfold dep
    rw [hnew w hw]
    rfl
  have hvk : v ∈ dmKeys D := inv.qmem v (List.mem_cons_self v qs)
  have hdv : dep D v = sdist g s v := bfs_head_exact inv
  have hqsk : ∀ w ∈ qs, w ∈ dmKeys D :=
    fun w hw => inv.qmem w (List.mem_cons_of_mem v hw)
  have hsortedhead : ∀ w ∈ qs, dep D v ≤ dep D w :=
    (List.pairwise_cons.mp inv.sorted).1
  refine ⟨?_, ?_, ?_, ?_, ?_, ?_, ?_, ?_, ?_, ?_⟩
  · -- nodupKeys
    rw [hkeys']
    exact List.Nodup.append inv.nodupKeys hns_nodup
      (fun a ha hb => hdisj a hb ha)
  · -- source
    have hsk : s ∈ dmKeys D := dmFind_some_mem_keys inv.source
    rw [hold s hsk]
    exact inv.source
  · -- pwf
    intro x d po hfind
    by_cases hx : x ∈ dmKeys D
    · rw [hold x hx] at hfind
      rcases inv.pwf x d po hfind with ⟨h1, h2, h3⟩
      refine ⟨h1, h2, ?_⟩
      intro p hp
      rcases h3 p hp with ⟨hadj, dp, pp, hfp, hdp⟩
      exact ⟨hadj, dp, pp, hold p (dmFind_some_mem_keys hfp) ▸ hfp, hdp⟩
    · have hxn : x ∈ ns := by
        by_contra hxn
        have : dmFind (D ++ E) x = none := by
          rw [dmFind_append_right (dmFind_eq_none.mpr hx)]
          rw [dmFind_eq_none, hkeysE]
          exact hxn
        rw [hfind] at this
        cases this
      have := hnew x hxn
      rw [hfind] at this
      have hd : d = dep D v + 1 := (Prod.mk.injEq _ _ _ _).mp (Option.some.inj this) |>.1
      have hpo : po = some v := (Prod.mk.injEq _ _ _ _).mp (Option.some.inj this) |>.2
      refine ⟨(hns_mem x hxn).2.1, ?_, ?_⟩
      · intro h0; rw [hpo] at h0; cases h0
      · intro p hp
        rw [hpo] at hp
        have hpv : p = v := (Option.some.inj hp).symm
        subst hpv
        rcases dmFind_dep hvk with ⟨pv, hfv⟩
        exact ⟨(hns_mem x hxn).1, dep D p, pv, hold p hvk ▸ hfv, by omega⟩
  · -- qmem
    intro w hw
    rw [hkeys']
    rcases List.mem_append.mp hw with h | h
    · exact List.mem_append.mpr (Or.inl (hqsk w h))
    · exact List.mem_append.mpr (Or.inr h)
  · -- sorted
    apply List.pairwise_append.mpr
    refine ⟨?_, ?_, ?_⟩
    · exact pairwise_dep_transfer (fun x hx => hdepold x (hqsk x hx))
        (List.pairwise_cons.mp inv.sorted).2
    · apply List.pairwise_of_forall_mem_list
      intro a ha b hb
      rw [hdepnew a ha, hdepnew b hb]
    · intro a ha b hb
      rw [hdepold a (hqsk a ha), hdepnew b hb]
      exact inv.twoLayer v (List.mem_cons_self v qs) a (List.mem_cons_of_mem v ha)
  · -- twoLayer
    intro u hu w hw
    rcases List.mem_append.mp hu with hu2 | hu2 <;> rcases List.mem_append.mp hw with hw2 | hw2
    · rw [hdepold u (hqsk u hu2), hdepold w (hqsk w hw2)]
      exact inv.twoLayer u (List.mem_cons_of_mem v hu2) w (List.mem_cons_of_mem v hw2)
    · rw [hdepold u (hqsk u hu2), hdepnew w hw2]
      have := hsortedhead u hu2
      omega
    · rw [hdepnew u hu2, hdepold w (hqsk w hw2)]
      have := inv.twoLayer v (List.mem_cons_self v qs) w (List.mem_cons_of_mem v hw2)
      omega
    · rw [hdepnew u hu2, hdepnew w hw2]
      omega
  · -- procLe
    intro u hu hunq w hw
    rw [hkeys'] at hu
    have hukeys : u ∈ dmKeys D := by
      rcases List.mem_append.mp hu with h | h
      · exact h
      · exact absurd (List.mem_append.mpr (Or.inr h)) hunq
    have hunqs : u ∉ qs := fun h => hunq (List.mem_append.mpr (Or.inl h))
    rw [hdepold u hukeys]
    by_cases huv : u = v
    · subst huv
      rcases List.mem_append.mp hw with h | h
      · rw [hdepold w (hqsk w h)]
        exact hsortedhead w h
      · rw [hdepnew w h]
        omega
    · have huproc : u ∉ (v :: qs) := by
        intro h
        rcases List.mem_cons.mp h with h2 | h2
        · exact huv h2
        · exact hunqs h2
      rcases List.mem_append.mp hw with h | h
      · rw [hdepold w (hqsk w h)]
        exact inv.procLe u hukeys huproc w (List.mem_cons_of_mem v h)
      · rw [hdepnew w h]
        have := inv.procLe u hukeys huproc v (List.mem_cons_self v qs)
        omega
  · -- procExact
    intro u hu hunq
    rw [hkeys'] at hu
    have hukeys : u ∈ dmKeys D := by
      rcases List.mem_append.mp hu with h | h
      · exact h
      · exact absurd (List.mem_append.mpr (Or.inr h)) hunq
    have hunqs : u ∉ qs := fun h => hunq (List.mem_append.mpr (Or.inl h))
    rw [hdepold u hukeys]
    by_cases huv : u = v
    · subst huv; exact hdv
    · exact inv.procExact u hukeys (fun h => by
        rcases List.mem_cons.mp h with h2 | h2
        · exact huv h2
        · exact hunqs h2)
  · -- procNbrs
    intro u hu hunq w hadj htrav
    rw [hkeys'] at hu
    have hukeys : u ∈ dmKeys D := by
      rcases List.mem_append.mp hu with h | h
      · exact h
      · exact absurd (List.mem_append.mpr (Or.inr h)) hunq
    have hunqs : u ∉ qs := fun h => hunq (List.mem_append.mpr (Or.inl h))
    by_cases huv : u = v
    · subst huv
      rcases hfw : dmFind D w with _ | val
      · -- freshly discovered neighbour
        have hwns : w ∈ ns := by
          rw [hns]
          apply List.mem_filter.mpr
          refine ⟨mem_nbrs.mpr hadj, ?_⟩
          have h1 : traversableB g w = true := htrav
          rw [hfw, h1]
          rfl
        refine ⟨by rw [hkeys']; exact List.mem_append.mpr (Or.inr hwns), ?_⟩
        rw [hdepnew w hwns, hdepold u hukeys]
      · have hwkeys : w ∈ dmKeys D := dmFind_some_mem_keys hfw
        refine ⟨by rw [hkeys']; exact List.mem_append.mpr (Or.inl hwkeys), ?_⟩
        rw [hdepold w hwkeys, hdepold u hukeys]
        by_cases hwq : w ∈ (u :: qs)
        · exact inv.twoLayer u (List.mem_cons_self u qs) w hwq
        · have := inv.procLe w hwkeys hwq u (List.mem_cons_self u qs)
          omega
    · have huproc : u ∉ (v :: qs) := by
        intro h
        rcases List.mem_cons.mp h with h2 | h2
        · exact huv h2
        · exact hunqs h2
      rcases inv.procNbrs u hukeys huproc w hadj htrav with ⟨h1, h2⟩
      refine ⟨by rw [hkeys']; exact List.mem_append.mpr (Or.inl h1), ?_⟩
      rw [hdepold w h1, hdepold u hukeys]
      exact h2
  · -- goalQueued
    intro ht
    rw [hkeys'] at ht
    rcases List.mem_append.mp ht with h | h
    · have := inv.goalQueued h
      rcases List.mem_cons.mp this with h2 | h2
      · exact absurd h2.symm hvt
      · exact List.mem_append.mpr (Or.inl h2)
    · exact List.mem_append.mpr (Or.inr h)

/-- Discovered coordinates live inside the finite grid universe, bounding
the discovery map size. -/
theorem dmKeys_length_le {g : AppGrid} {s : Coord} {D : Dmap}
    (hpwf : PWF g s D) (hnodup : (dmKeys D).Nodup) :
    (dmKeys D).length ≤ (allPairs g).length := by
  apply (List.Nodup.subperm hnodup ?_).length_le
  intro x hx
  rcases dmFind_dep hx with ⟨po, hfind⟩
  exact traversable_mem_allPairs (hpwf x (dep D x) po hfind).1

/-- The BFS loop, started in an invariant state with enough fuel, dequeues
the reachable goal, recording its exact shortest distance. -/
theorem bfsLoop_finds {g : AppGrid} {s t : Coord} (hreach : Reachable g s t) :
    ∀ (fuel : Nat) (q : List Coord) (D : Dmap) (vo : List Coord),
      BfsInv g s t q D →
      q.length + ((allPairs g).length - (dmKeys D).length) < fuel →
      ∃ D' vo', bfsLoop g t fuel q D vo = some (true, D', vo') ∧
        PWF g s D' ∧ ∃ po, dmFind D' t = some (sdist g s t, po) := by
  intro fuel
  induction fuel with
  | zero => intro q D vo _ hm; omega
  | succ n ih =>
      intro q D vo inv hm
      cases q with
      | nil =>
          exfalso
          have ht : t ∉ dmKeys D ∨ t ∈ ([] : List Coord) := by
            by_cases h : t ∈ dmKeys D
            · exact Or.inr (inv.goalQueued h)
            · exact Or.inl h
          rcases bfs_frontier_bound inv (sdist g s t) t hreach rfl ht with ⟨w, hw, _⟩
          simp at hw
      | cons v qs =>
          rw [bfsLoop_cons]
          by_cases hvt : v = t
          · rw [if_pos hvt]
            subst hvt
            rcases dmFind_dep (inv.qmem v (List.mem_cons_self v qs)) with ⟨po, hfind⟩
            refine ⟨D, vo ++ [v], rfl, inv.pwf, po, ?_⟩
            rw [← bfs_head_exact inv]
            exact hfind
          · rw [if_neg hvt]
            have inv' := bfs_inv_step inv hvt
            apply ih _ _ _ inv'
            have hlen1 : (dmKeys (D ++ ((nbrs v).filter
                (fun w => traversableB g w && (dmFind D w).isNone)).map
                  (fun w => (w, (dep D v + 1, some v))))).length =
                (dmKeys D).length + ((nbrs v).filter
                  (fun w => traversableB g w && (dmFind D w).isNone)).length := by
              rw [dmKeys_append, List.length_append]
              congr 1
              unfold dmKeys
              rw [List.length_map, List.length_map]
            have hb := dmKeys_length_le inv'.pwf inv'.nodupKeys
            rw [hlen1] at hb
            rw [List.length_append, hlen1]
            rw [List.length_cons] at hm
            omega

/-- BFS correctness (spec 4.3): on a reachable instance the returned path is
a walk from start to goal whose length is the shortest-path edge count plus
one. -/
theorem bfs_optimal {g : AppGrid} {s t : Coord} (hreach : Reachable g s t) :
    WalkFrom g s t (bfs g s t).path ∧
      (bfs g s t).path.length = sdist g s t + 1 := by
  have hs := (reachable_traversable hreach).1
  have inv0 : BfsInv g s t [s] [(s, (0, none))] := by
    refine ⟨?_, ?_, ?_, ?_, ?_, ?_, ?_, ?_, ?_, ?_⟩
    · simp [dmKeys]
    · simp [dmFind]
    · intro x d po hfind
      unfold dmFind at hfind
      by_cases hx : s = x
      · rw [if_pos hx] at hfind
        have h1 : d = 0 ∧ po = none := by
          have := Option.some.inj hfind
          exact ⟨((Prod.mk.injEq _ _ _ _).mp this).1.symm,
            ((Prod.mk.injEq _ _ _ _).mp this).2.symm⟩
        subst hx
        refine ⟨hs, fun _ => ⟨rfl, h1.1⟩, ?_⟩
        intro p hp
        rw [h1.2] at hp
        cases hp
      · rw [if_neg hx] at hfind
        cases hfind
    · intro w hw
      simp at hw
      subst hw
      simp [dmKeys]
    · simp
    · intro u hu w hw
      simp at hu hw
      subst hu; subst hw
      omega
    · intro u hu hunq
      simp [dmKeys] at hu
      subst hu
      simp at hunq
    · intro u hu hunq
      simp [dmKeys] at hu
      subst hu
      simp at hunq
    · intro u hu hunq
      simp [dmKeys] at hu
      subst hu
      simp at hunq
    · intro ht
      simp [dmKeys] at ht
      subst ht
      simp
  have hBpos : 1 ≤ (allPairs g).length := by
    have := traversable_mem_allPairs hs
    exact List.length_pos.mpr (List.ne_nil_of_mem this)
  have hm : ([s] : List Coord).length +
      ((allPairs g).length - (dmKeys [(s, ((0 : Nat), (none : Option Coord)))]).length) <
        (allPairs g).length + 2 := by
    simp [dmKeys]
    omega
  rcases bfsLoop_finds hreach ((allPairs g).length + 2) [s] [(s, (0, none))] []
      inv0 hm with ⟨D', vo', hrun, hpwf, po, hfind⟩
  have hpath : (bfs g s t).path = chainPath D' (sdist g s t) t := by
    unfold bfs
    rw [hrun]
    show (match dmFind D' t with
      | some (dt, _) => chainPath D' dt t
      | none => []) = chainPath D' (sdist g s t) t
    rw [hfind]
  rw [hpath]
  have := chainPath_walk hpwf (sdist g s t) t po ?_
  · rcases this with ⟨h1, h2⟩
    exact ⟨by
      have hdep : dep D' t = sdist g s t := by unfold dep; rw [hfind]
      rw [← hdep] at h1 ⊢
      exact h1, by
      have hdep : dep D' t = sdist g s t := by unfold dep; rw [hfind]
      rw [← hdep]
      rw [← hdep] at h2
      exact h2⟩
  · exact hfind

/-! ## Priority best-first search (spec 4.5-4.6)

Dijkstra and A* share one engine: a priority frontier ordered by
`f = g + h` (Dijkstra is the instance `h = 0`, leaving the order "by
accumulated cost"), ties broken by lower `g` and then by stable insertion
order (which realises the fixed neighbour order); a coordinate's recorded
cost is updated only when a strictly cheaper path is found, overwriting its
predecessor; expansion happens at most once per coordinate (a closed list
skips stale duplicate frontier entries); the run terminates when the goal is
popped or the frontier empties. -/

/-- Priority key of a frontier entry `(coordinate, g)`: `(g + h, g)`,
compared lexicographically. -/
def pqKey (h : Coord → Nat) (e : Coord × Nat) : Nat × Nat := (e.2 + h e.1, e.2)

/-- Lexicographic order on keys. -/
def keyLe (a b : Nat × Nat) : Prop := a.1 < b.1 ∨ (a.1 = b.1 ∧ a.2 ≤ b.2)

instance (a b : Nat × Nat) : Decidable (keyLe a b) :=
  decidable_of_iff (a.1 < b.1 ∨ (a.1 = b.1 ∧ a.2 ≤ b.2)) Iff.rfl

theorem keyLe_total (a b : Nat × Nat) : keyLe a b ∨ keyLe b a := by
  unfold keyLe; omega

theorem keyLe_trans {a b c : Nat × Nat} (h1 : keyLe a b) (h2 : keyLe b c) :
    keyLe a c := by
  unfold keyLe at *; omega

theorem keyLe_first {a b : Nat × Nat} (h : keyLe a b) : a.1 ≤ b.1 := by
  unfold keyLe at h; omega

/-- Stable insertion: the new entry goes after every entry whose key is at
most its own (equal keys keep the insertion order). -/
def pqInsert (h : Coord → Nat) (e : Coord × Nat) :
    List (Coord × Nat) → List (Coord × Nat)
  | [] => [e]
  | x :: xs =>
      if keyLe (pqKey h x) (pqKey h e) then x :: pqInsert h e xs
      else e :: x :: xs

theorem mem_pqInsert {h : Coord → Nat} {e e' : Coord × Nat} :
    ∀ {q : List (Coord × Nat)}, e' ∈ pqInsert h e q ↔ e' = e ∨ e' ∈ q := by
  intro q
  induction q with
  | nil => simp [pqInsert]
  | cons x xs ih =>
      unfold pqInsert
      by_cases hx : keyLe (pqKey h x) (pqKey h e)
      · rw [if_pos hx]
        simp only [List.mem_cons, ih]
        tauto
      · rw [if_neg hx]
        simp only [List.mem_cons]

theorem pqInsert_sorted {h : Coord → Nat} {e : Coord × Nat} :
    ∀ {q : List (Coord × Nat)},
      List.Pairwise (fun a b => keyLe (pqKey h a) (pqKey h b)) q →
      List.Pairwise (fun a b => keyLe (pqKey h a) (pqKey h b)) (pqInsert h e q) := by
  intro q
  induction q with
  | nil => intro _; simp [pqInsert]
  | cons x xs ih =>
      intro hp
      rcases List.pairwise_cons.mp hp with ⟨hx, hxs⟩
      unfold pqInsert
      by_cases hk : keyLe (pqKey h x) (pqKey h e)
      · rw [if_pos hk]
        refine List.pairwise_cons.mpr ⟨?_, ih hxs⟩
        intro b hb
        rcases mem_pqInsert.mp hb with hb2 | hb2
        · subst hb2; exact hk
        · exact hx b hb2
      · rw [if_neg hk]
        have hek : keyLe (pqKey h e) (pqKey h x) := by
          rcases keyLe_total (pqKey h e) (pqKey h x) with h1 | h1
          · exact h1
          · exact absurd h1 hk
        refine List.pairwise_cons.mpr ⟨?_, hp⟩
        intro b hb
        rcases List.mem_cons.mp hb with hb2 | hb2
        · subst hb2; exact hek
        · exact keyLe_trans hek (hx b hb2)

theorem pqInsert_length {h : Coord → Nat} (e : Coord × Nat) :
    ∀ (q : List (Coord × Nat)), (pqInsert h e q).length = q.length + 1 := by
  intro q
  induction q with
  | nil => rfl
  | cons x xs ih =>
      unfold pqInsert
      by_cases hk : keyLe (pqKey h x) (pqKey h e)
      · rw [if_pos hk]
        simp [ih]
      · rw [if_neg hk]
        simp

/-- One relaxation (spec 4.5): skip untraversable probes; discover an
unknown coordinate at cost `gv + 1` with predecessor `v`; update a known
coordinate only when the new path is strictly cheaper, overwriting its
predecessor; otherwise leave the state alone.  Any (re)discovery pushes a
frontier entry. -/
def relax (g : AppGrid) (h : Coord → Nat) (v : Coord) (gv : Nat)
    (st : List (Coord × Nat) × Dmap) (w : Coord) : List (Coord × Nat) × Dmap :=
  if traversableB g w then
    match dmFind st.2 w with
    | none => (pqInsert h (w, gv + 1) st.1, st.2 ++ [(w, (gv + 1, some v))])
    | some (gw, _) =>
        if gv + 1 < gw then (pqInsert h (w, gv + 1) st.1, dmSet st.2 w (gv + 1, some v))
        else st
  else st

/-- The priority-search main loop.  Pop the least-key entry (the head of the
sorted frontier); succeed when it is the goal; skip it when the coordinate
was already expanded (a stale duplicate); otherwise close the coordinate and
relax its neighbours in the fixed order.  `vo` accumulates the expansion
order.  Fuel only forces structural termination. -/
def pqLoop (g : AppGrid) (h : Coord → Nat) (t : Coord) :
    Nat → List (Coord × Nat) → Dmap → List Coord → List Coord →
      Option (Bool × Dmap × List Coord)
  | 0, _, _, _, _ => none
  | _ + 1, [], G, _, vo => some (false, G, vo)
  | fuel + 1, e :: qs, G, C, vo =>
      if e.1 = t then some (true, G, vo ++ [e.1])
      else if e.1 ∈ C then pqLoop g h t fuel qs G C vo
      else
        let st := (nbrs e.1).foldl (relax g h e.1 e.2) (qs, G)
        pqLoop g h t fuel st.1 st.2 (C ++ [e.1]) (vo ++ [e.1])

theorem pqLoop_cons (g : AppGrid) (h : Coord → Nat) (t : Coord) (fuel : Nat)
    (e : Coord × Nat) (qs : List (Coord × Nat)) (G : Dmap) (C vo : List Coord) :
    pqLoop g h t (fuel + 1) (e :: qs) G C vo =
      if e.1 = t then some (true, G, vo ++ [e.1])
      else if e.1 ∈ C then pqLoop g h t fuel qs G C vo
      else
        pqLoop g h t fuel ((nbrs e.1).foldl (relax g h e.1 e.2) (qs, G)).1
          ((nbrs e.1).foldl (relax g h e.1 e.2) (qs, G)).2 (C ++ [e.1])
          (vo ++ [e.1]) := rfl

/-- The shared priority search over a heuristic `h`. -/
def pqSearch (g : AppGrid) (h : Coord → Nat) (s t : Coord) : SearchResult :=
  match pqLoop g h t (5 * (allPairs g).length + 2) [(s, 0)] [(s, (0, none))] [] [] with
  | some (true, G, vo) =>
      { path :=
          match dmFind G t with
          | some (dt, _) => chainPath G dt t
          | none => []
        visitedOrder := vo }
  | some (false, _, vo) => { path := [], visitedOrder := vo }
  | none => { path := [], visitedOrder := [] }

/-- `dijkstra` (spec 4.5): the priority search with the zero heuristic - the
frontier is ordered by accumulated cost, ties broken by stable insertion. -/
def dijkstra (g : AppGrid) (s t : Coord) : SearchResult :=
  pqSearch g (fun _ => 0) s t

/-- `astar` (spec 4.6): the priority search with the Manhattan-distance
heuristic to the goal. -/
def astar (g : AppGrid) (s t : Coord) : SearchResult :=
  pqSearch g (fun v => manhattan v t) s t

theorem adj_irrefl (v : Coord) : ¬Adj v v := by
  unfold Adj; omega

theorem nbrs_length_le (p : Coord) : (nbrs p).length ≤ 4 := by
  unfold nbrs
  by_cases h1 : 0 < p.1 <;> by_cases h2 : 0 < p.2 <;> simp [h1, h2]

/-- Invariant of the priority-search loop state between expansions.  `q` is
the key-sorted frontier (possibly holding stale duplicates), `G` the
cost/predecessor map, `C` the closed (expanded) list. -/
structure PqInv (g : AppGrid) (h : Coord → Nat) (s t : Coord)
    (q : List (Coord × Nat)) (G : Dmap) (C : List Coord) : Prop where
  nodupKeys : (dmKeys G).Nodup
  source : dmFind G s = some (0, none)
  pwf : PWF g s G
  parentIn : ∀ x d p, dmFind G x = some (d, some p) → p ∈ C
  entryDisc : ∀ e ∈ q, e.1 ∈ dmKeys G ∧ dep G e.1 ≤ e.2
  bestEntry : ∀ x ∈ dmKeys G, x ∉ C → (x, dep G x) ∈ q
  sortedQ : List.Pairwise (fun a b => keyLe (pqKey h a) (pqKey h b)) q
  closedExact : ∀ u ∈ C, u ∈ dmKeys G ∧ dep G u = sdist g s u
  closedNbrs : ∀ u ∈ C, ∀ w, Adj u w → traversable g w →
      w ∈ dmKeys G ∧ dep G w ≤ sdist g s u + 1
  goalOpen : t ∉ C
  closedNodup : C.Nodup

/-- Frontier bound for the priority search: a reachable unexpanded
coordinate at distance `d` forces a frontier entry of f-value at most
`d + h v` (consistency of `h` pays for each edge). -/
theorem pq_frontier_bound {g : AppGrid} {h : Coord → Nat} {s t : Coord}
    {q : List (Coord × Nat)} {G : Dmap} {C : List Coord}
    (inv : PqInv g h s t q G C)
    (hcons : ∀ a b, Adj a b → h a ≤ h b + 1) :
    ∀ d (v : Coord), Reachable g s v → sdist g s v = d → v ∉ C →
      ∃ e ∈ q, e.2 + h e.1 ≤ d + h v := by
  intro d
  induction d using Nat.strong_induction_on with
  | _ d ih =>
      intro v hreach hd hvC
      cases d with
      | zero =>
          have hv : v = s := sdist_zero_eq hreach hd
          subst hv
          have hsk : v ∈ dmKeys G := dmFind_some_mem_keys inv.source
          have hdep : dep G v = 0 := by unfold dep; rw [inv.source]
          refine ⟨(v, dep G v), inv.bestEntry v hsk hvC, ?_⟩
          show dep G v + h v ≤ 0 + h v
          rw [hdep]
      | succ k =>
          rcases sdist_decompose hreach hd with ⟨u, hadj, hureach, hud⟩
          by_cases huC : u ∈ C
          · rcases inv.closedNbrs u huC v hadj (reachable_traversable hreach).2
              with ⟨hvk, hvdep⟩
            refine ⟨(v, dep G v), inv.bestEntry v hvk hvC, ?_⟩
            show dep G v + h v ≤ (k + 1) + h v
            rw [hud] at hvdep
            omega
          · rcases ih k (by omega) u hureach hud huC with ⟨e, he, hbound⟩
            refine ⟨e, he, ?_⟩
            have := hcons u v hadj
            omega

/-- When an unexpanded coordinate is popped, the entry's g-value and its
recorded cost are both the true shortest distance. -/
theorem pq_head_exact {g : AppGrid} {h : Coord → Nat} {s t v : Coord} {gv : Nat}
    {qs : List (Coord × Nat)} {G : Dmap} {C : List Coord}
    (inv : PqInv g h s t ((v, gv) :: qs) G C)
    (hcons : ∀ a b, Adj a b → h a ≤ h b + 1)
    (hvC : v ∉ C) :
    gv = dep G v ∧ dep G v = sdist g s v := by
  have hdisc := inv.entryDisc (v, gv) (List.mem_cons_self _ _)
  have hvk : v ∈ dmKeys G := hdisc.1
  have hdepgv : dep G v ≤ gv := hdisc.2
  have hsound : Reachable g s v ∧ sdist g s v ≤ dep G v := bfs_disc_sound inv.pwf hvk
  have hbest := inv.bestEntry v hvk hvC
  have hheadmin : ∀ e ∈ qs, keyLe (pqKey h (v, gv)) (pqKey h e) :=
    (List.pairwise_cons.mp inv.sortedQ).1
  have hgv_le : gv ≤ dep G v := by
    rcases List.mem_cons.mp hbest with he | he
    · have : gv = dep G v := ((Prod.mk.injEq _ _ _ _).mp he.symm).2
      omega
    · have h2 := hheadmin (v, dep G v) he
      unfold keyLe pqKey at h2
      simp at h2
      omega
  have hgv_eq : gv = dep G v := by omega
  rcases pq_frontier_bound inv hcons (sdist g s v) v hsound.1 rfl hvC
      with ⟨e, he, hbound⟩
  have hkey : gv + h v ≤ e.2 + h e.1 := by
    rcases List.mem_cons.mp he with he2 | he2
    · subst he2
      show gv + h v ≤ gv + h v
      omega
    · have h3 := keyLe_first (hheadmin e he2)
      unfold pqKey at h3
      simpa using h3
  have hfin : gv ≤ sdist g s v := by omega
  omega

/-- Invariant carried through the relaxation fold while expanding `v` (whose
popped g-value `gv` is its exact distance, `v` being freshly closed): the
between-expansions invariant with closed list `C ++ [v]`, except that `v`'s
neighbour property is only established by the fold itself. -/
structure RlxInv (g : AppGrid) (h : Coord → Nat) (s t v : Coord) (gv : Nat)
    (C : List Coord) (q : List (Coord × Nat)) (G : Dmap) : Prop where
  nodupKeys : (dmKeys G).Nodup
  source : dmFind G s = some (0, none)
  pwf : PWF g s G
  parentIn : ∀ x d p, dmFind G x = some (d, some p) → p ∈ C ++ [v]
  entryDisc : ∀ e ∈ q, e.1 ∈ dmKeys G ∧ dep G e.1 ≤ e.2
  bestEntry : ∀ x ∈ dmKeys G, x ∉ C ++ [v] → (x, dep G x) ∈ q
  sortedQ : List.Pairwise (fun a b => keyLe (pqKey h a) (pqKey h b)) q
  closedExact : ∀ u ∈ C ++ [v], u ∈ dmKeys G ∧ dep G u = sdist g s u
  closedNbrsOld : ∀ u ∈ C, ∀ w, Adj u w → traversable g w →
      w ∈ dmKeys G ∧ dep G w ≤ sdist g s u + 1
  vdisc : ∃ pv, dmFind G v = some (gv, pv)

theorem relax_eq (g : AppGrid) (h : Coord → Nat) (v : Coord) (gv : Nat)
    (q : List (Coord × Nat)) (G : Dmap) (w : Coord) :
    relax g h v gv (q, G) w =
      if traversableB g w then
        match dmFind G w with
        | none => (pqInsert h (w, gv + 1) q, G ++ [(w, (gv + 1, some v))])
        | some (gw, _) =>
            if gv + 1 < gw then
              (pqInsert h (w, gv + 1) q, dmSet G w (gv + 1, some v))
            else (q, G)
      else (q, G) := rfl

/-- One relaxation preserves the fold invariant; recorded costs never
increase, and a traversable neighbour ends up discovered at cost at most
`gv + 1`. -/
theorem relax_step {g : AppGrid} {h : Coord → Nat} {s t v : Coord} {gv : Nat}
    {C : List Coord} {q : List (Coord × Nat)} {G : Dmap}
    (inv : RlxInv g h s t v gv C q G) (hgv : gv = sdist g s v)
    {w : Coord} (hadj : Adj v w) :
    RlxInv g h s t v gv C (relax g h v gv (q, G) w).1 (relax g h v gv (q, G) w).2 ∧
    (∀ x ∈ dmKeys G,
      x ∈ dmKeys (relax g h v gv (q, G) w).2 ∧
      dep (relax g h v gv (q, G) w).2 x ≤ dep G x) ∧
    (traversable g w → w ∈ dmKeys (relax g h v gv (q, G) w).2 ∧
      dep (relax g h v gv (q, G) w).2 w ≤ gv + 1) ∧
    (relax g h v gv (q, G) w).1.length ≤ q.length + 1 := by
  have hwv : w ≠ v := by
    intro he
    subst he
    exact adj_irrefl w hadj
  rcases inv.vdisc with ⟨pv, hfv⟩
  have hvkeys : v ∈ dmKeys G := dmFind_some_mem_keys hfv
  have hvreach : Reachable g s v := (bfs_disc_sound inv.pwf hvkeys).1
  have hdepv : dep G v = gv := by unfold dep; rw [hfv]
  by_cases htw : traversableB g w
  · rcases hfw : dmFind G w with _ | val
    · -- fresh discovery
      have hstate : relax g h v gv (q, G) w =
          (pqInsert h (w, gv + 1) q, G ++ [(w, (gv + 1, some v))]) := by
        rw [relax_eq, if_pos htw, hfw]
      rw [hstate]
      set G' := G ++ [(w, (gv + 1, some v))] with hG'
      have hwkeys : w ∉ dmKeys G := dmFind_eq_none.mp hfw
      have hold : ∀ x ∈ dmKeys G, dmFind G' x = dmFind G x := by
        intro x hx
        rcases dmFind_dep hx with ⟨po, hfind⟩
        rw [dmFind_append_left hfind, hfind]
      have hneww : dmFind G' w = some (gv + 1, some v) := by
        rw [hG', dmFind_append_right hfw]
        simp [dmFind]
      have hkeys' : dmKeys G' = dmKeys G ++ [w] := by
        rw [hG', dmKeys_append]
        rfl
      have hdepold : ∀ x ∈ dmKeys G, dep G' x = dep G x := by
        intro x hx
        unfold dep
        rw [hold x hx]
      have hdepw : dep G' w = gv + 1 := by
        unfold dep
        rw [hneww]
      have hmono : ∀ x ∈ dmKeys G, x ∈ dmKeys G' ∧ dep G' x ≤ dep G x := by
        intro x hx
        exact ⟨by rw [hkeys']; exact List.mem_append.mpr (Or.inl hx),
          by rw [hdepold x hx]⟩
      refine ⟨?_, hmono, ?_, ?_⟩
      · refine ⟨?_, ?_, ?_, ?_, ?_, ?_, ?_, ?_, ?_, ?_⟩
        · rw [hkeys']
          exact List.Nodup.append inv.nodupKeys (by simp)
            (by intro a ha hb; simp at hb; subst hb; exact hwkeys ha)
        · rw [hold s (dmFind_some_mem_keys inv.source)]
          exact inv.source
        · intro x d po hfind
          by_cases hx : x ∈ dmKeys G
          · rw [hold x hx] at hfind
            rcases inv.pwf x d po hfind with ⟨h1, h2, h3⟩
            refine ⟨h1, h2, ?_⟩
            intro p hp
            rcases h3 p hp with ⟨hadj2, dp, pp, hfp, hdp⟩
            exact ⟨hadj2, dp, pp, hold p (dmFind_some_mem_keys hfp) ▸ hfp, hdp⟩
          · have hxw : x = w := by
              by_contra hxw
              have hnone : dmFind G' x = none := by
                rw [hG', dmFind_append_right (dmFind_eq_none.mpr hx)]
                simp [dmFind, hxw]
                intro he
                exact absurd he.symm hxw
              rw [hfind] at hnone
              cases hnone
            subst hxw
            rw [hneww] at hfind
            have hd : d = gv + 1 := ((Prod.mk.injEq _ _ _ _).mp (Option.some.inj hfind)).1.symm
            have hpo : po = some v := ((Prod.mk.injEq _ _ _ _).mp (Option.some.inj hfind)).2.symm
            refine ⟨htw, ?_, ?_⟩
            · intro h0; rw [h0] at hpo; cases hpo
            · intro p hp
              rw [hpo] at hp
              have hpveq : p = v := Option.some.inj hp.symm
              subst hpveq
              exact ⟨hadj, gv, pv, hold p hvkeys ▸ hfv, by omega⟩
        · intro x d p hfind
          by_cases hx : x ∈ dmKeys G
          · rw [hold x hx] at hfind
            exact inv.parentIn x d p hfind
          · have hxw : x = w := by
              by_contra hxw
              have hnone : dmFind G' x = none := by
                rw [hG', dmFind_append_right (dmFind_eq_none.mpr hx)]
                simp [dmFind]
                intro he
                exact absurd he.symm hxw
              rw [hfind] at hnone
              cases hnone
            subst hxw
            rw [hneww] at hfind
            have hpv2 : p = v :=
              (Option.some.inj ((Prod.mk.injEq _ _ _ _).mp (Option.some.inj hfind)).2).symm
            subst hpv2
            exact List.mem_append.mpr (Or.inr (by simp))
        · intro e he
          rcases mem_pqInsert.mp he with he2 | he2
          · subst he2
            exact ⟨by rw [hkeys']; simp, by rw [hdepw]⟩
          · rcases inv.entryDisc e he2 with ⟨h1, h2⟩
            exact ⟨(hmono e.1 h1).1, Nat.le_trans (hmono e.1 h1).2 h2⟩
        · intro x hx hxc
          rw [hkeys'] at hx
          rcases List.mem_append.mp hx with hx2 | hx2
          · rw [hdepold x hx2]
            exact mem_pqInsert.mpr (Or.inr (inv.bestEntry x hx2 hxc))
          · simp at hx2
            subst hx2
            rw [hdepw]
            exact mem_pqInsert.mpr (Or.inl rfl)
        · exact pqInsert_sorted inv.sortedQ
        · intro u hu
          rcases inv.closedExact u hu with ⟨h1, h2⟩
          exact ⟨(hmono u h1).1, by rw [hdepold u h1]; exact h2⟩
        · intro u hu w2 hadj2 htrav2
          rcases inv.closedNbrsOld u hu w2 hadj2 htrav2 with ⟨h1, h2⟩
          exact ⟨(hmono w2 h1).1, by rw [hdepold w2 h1]; exact h2⟩
        · exact ⟨pv, hold v hvkeys ▸ hfv⟩
      · intro _
        exact ⟨by rw [hkeys']; simp, by rw [hdepw]⟩
      · rw [pqInsert_length]
    · -- coordinate already known
      rcases val with ⟨gw, pw⟩
      have hwkeys : w ∈ dmKeys G := dmFind_some_mem_keys hfw
      have hdepweq : dep G w = gw := by unfold dep; rw [hfw]
      by_cases hlt : gv + 1 < gw
      · -- strictly cheaper: update cost and predecessor
        have hstate : relax g h v gv (q, G) w =
            (pqInsert h (w, gv + 1) q, dmSet G w (gv + 1, some v)) := by
          rw [relax_eq, if_pos htw, hfw]
          simp [hlt]
        rw [hstate]
        set G' := dmSet G w (gv + 1, some v) with hG'
        have hws : w ≠ s := by
          intro he
          subst he
          rw [inv.source] at hfw
          have : gw = 0 := ((Prod.mk.injEq _ _ _ _).mp (Option.some.inj hfw)).1.symm
          omega
        have hwC : w ∉ C ++ [v] := by
          intro hin
          rcases List.mem_append.mp hin with hin2 | hin2
          · have hcl := inv.closedExact w (List.mem_append.mpr (Or.inl hin2))
            have hstepb := sdist_step hvreach hadj htw
            rw [← hgv] at hstepb
            rw [hcl.2] at hdepweq
            omega
          · simp at hin2
            exact hwv hin2
        have hneww : dmFind G' w = some (gv + 1, some v) :=
          dmFind_dmSet_self _ hwkeys
        have hold : ∀ x, x ≠ w → dmFind G' x = dmFind G x := by
          intro x hx
          exact dmFind_dmSet_ne _ (fun he => hx he.symm)
        have hkeys' : dmKeys G' = dmKeys G := dmKeys_dmSet G w _
        have hdepold : ∀ x, x ≠ w → dep G' x = dep G x := by
          intro x hx
          unfold dep
          rw [hold x hx]
        have hdepw : dep G' w = gv + 1 := by
          unfold dep
          rw [hneww]
        have hmono : ∀ x ∈ dmKeys G, x ∈ dmKeys G' ∧ dep G' x ≤ dep G x := by
          intro x hx
          refine ⟨by rw [hkeys']; exact hx, ?_⟩
          by_cases hxw : x = w
          · subst hxw
            rw [hdepw, hdepweq]
            omega
          · rw [hdepold x hxw]
        refine ⟨?_, hmono, ?_, ?_⟩
        · refine ⟨?_, ?_, ?_, ?_, ?_, ?_, ?_, ?_, ?_, ?_⟩
          · rw [hkeys']; exact inv.nodupKeys
          · rw [hold s (fun he => hws he.symm)]
            exact inv.source
          · intro x d po hfind
            by_cases hxw : x = w
            · subst hxw
              rw [hneww] at hfind
              have hd : d = gv + 1 :=
                ((Prod.mk.injEq _ _ _ _).mp (Option.some.inj hfind)).1.symm
              have hpo : po = some v :=
                ((Prod.mk.injEq _ _ _ _).mp (Option.some.inj hfind)).2.symm
              refine ⟨htw, ?_, ?_⟩
              · intro h0; rw [h0] at hpo; cases hpo
              · intro p hp
                rw [hpo] at hp
                have hpveq : p = v := Option.some.inj hp.symm
                subst hpveq
                exact ⟨hadj, gv, pv, hold p hwv.symm ▸ hfv, by omega⟩
            · rw [hold x hxw] at hfind
              rcases inv.pwf x d po hfind with ⟨h1, h2, h3⟩
              refine ⟨h1, h2, ?_⟩
              intro p hp
              rcases h3 p hp with ⟨hadj2, dp, pp, hfp, hdp⟩
              have hpw : p ≠ w := by
                intro he
                apply hwC
                have hfind2 : dmFind G x = some (d, some p) := by
                  rw [hp] at hfind; exact hfind
                rw [he] at hfind2
                exact inv.parentIn x d w hfind2
              exact ⟨hadj2, dp, pp, hold p hpw ▸ hfp, hdp⟩
          · intro x d p hfind
            by_cases hxw : x = w
            · subst hxw
              rw [hneww] at hfind
              have hpv2 : p = v :=
                (Option.some.inj ((Prod.mk.injEq _ _ _ _).mp (Option.some.inj hfind)).2).symm
              subst hpv2
              exact List.mem_append.mpr (Or.inr (by simp))
            · rw [hold x hxw] at hfind
              exact inv.parentIn x d p hfind
          · intro e he
            rcases mem_pqInsert.mp he with he2 | he2
            · subst he2
              exact ⟨by rw [hkeys']; exact hwkeys, by rw [hdepw]⟩
            · rcases inv.entryDisc e he2 with ⟨h1, h2⟩
              exact ⟨(hmono e.1 h1).1, Nat.le_trans (hmono e.1 h1).2 h2⟩
          · intro x hx hxc
            rw [hkeys'] at hx
            by_cases hxw : x = w
            · subst hxw
              rw [hdepw]
              exact mem_pqInsert.mpr (Or.inl rfl)
            · rw [hdepold x hxw]
              exact mem_pqInsert.mpr (Or.inr (inv.bestEntry x hx hxc))
          · exact pqInsert_sorted inv.sortedQ
          · intro u hu
            rcases inv.closedExact u hu with ⟨h1, h2⟩
            have huw : u ≠ w := by
              intro he
              subst he
              exact hwC hu
            exact ⟨by rw [hkeys']; exact h1, by rw [hdepold u huw]; exact h2⟩
          · intro u hu w2 hadj2 htrav2
            rcases inv.closedNbrsOld u hu w2 hadj2 htrav2 with ⟨h1, h2⟩
            refine ⟨by rw [hkeys']; exact h1, ?_⟩
            by_cases hw2 : w2 = w
            · subst hw2
              rw [hdepw]
              rw [hdepweq] at h2
              omega
            · rw [hdepold w2 hw2]
              exact h2
          · exact ⟨pv, hold v hwv.symm ▸ hfv⟩
        · intro _
          exact ⟨by rw [hkeys']; exact hwkeys, by rw [hdepw]⟩
        · rw [pqInsert_length]
      · -- not cheaper: no change
        have hstate : relax g h v gv (q, G) w = (q, G) := by
          rw [relax_eq, if_pos htw, hfw]
          simp [hlt]
        rw [hstate]
        refine ⟨inv, ?_, ?_, ?_⟩
        · intro x hx
          exact ⟨hx, Nat.le_refl _⟩
        · intro _
          exact ⟨hwkeys, by rw [hdepweq]; omega⟩
        · show q.length ≤ q.length + 1
          omega
  · -- untraversable probe: no change
    have hstate : relax g h v gv (q, G) w = (q, G) := by
      rw [relax_eq, if_neg htw]
    rw [hstate]
    refine ⟨inv, ?_, ?_, ?_⟩
    · intro x hx
      exact ⟨hx, Nat.le_refl _⟩
    · intro ht2
      exact absurd ht2 htw
    · show q.length ≤ q.length + 1
      omega

/-- Folding the relaxation over a neighbour list preserves the invariant,
never increases recorded costs, discovers every traversable listed
neighbour at cost at most `gv + 1`, and grows the frontier by at most one
entry per neighbour. -/
theorem relax_fold {g : AppGrid} {h : Coord → Nat} {s t v : Coord} {gv : Nat}
    {C : List Coord} (hgv : gv = sdist g s v) :
    ∀ (ws : List Coord) (q : List (Coord × Nat)) (G : Dmap),
      RlxInv g h s t v gv C q G → (∀ w ∈ ws, Adj v w) →
      RlxInv g h s t v gv C (ws.foldl (relax g h v gv) (q, G)).1
        (ws.foldl (relax g h v gv) (q, G)).2 ∧
      (∀ x ∈ dmKeys G, x ∈ dmKeys (ws.foldl (relax g h v gv) (q, G)).2 ∧
        dep (ws.foldl (relax g h v gv) (q, G)).2 x ≤ dep G x) ∧
      (∀ w ∈ ws, traversable g w →
        w ∈ dmKeys (ws.foldl (relax g h v gv) (q, G)).2 ∧
        dep (ws.foldl (relax g h v gv) (q, G)).2 w ≤ gv + 1) ∧
      (ws.foldl (relax g h v gv) (q, G)).1.length ≤ q.length + ws.length := by
  intro ws
  induction ws with
  | nil =>
      intro q G hinv _
      refine ⟨hinv, ?_, ?_, ?_⟩
      · intro x hx; exact ⟨hx, Nat.le_refl _⟩
      · intro w hw; simp at hw
      · show q.length ≤ q.length + 0
        omega
  | cons w ws' ih =>
      intro q G hinv hadjs
      have hstep := relax_step hinv hgv (hadjs w (List.mem_cons_self w ws'))
      rcases hstep with ⟨hinv1, hmono1, hw1, hlen1⟩
      rcases ih (relax g h v gv (q, G) w).1 (relax g h v gv (q, G) w).2 hinv1
          (fun w2 hw2 => hadjs w2 (List.mem_cons_of_mem w hw2)) with
        ⟨hinv2, hmono2, hws2, hlen2⟩
      have hfold : (w :: ws').foldl (relax g h v gv) (q, G) =
          ws'.foldl (relax g h v gv)
            ((relax g h v gv (q, G) w).1, (relax g h v gv (q, G) w).2) := by
        rw [List.foldl_cons]
      rw [hfold]
      refine ⟨hinv2, ?_, ?_, ?_⟩
      · intro x hx
        rcases hmono1 x hx with ⟨hx1, hd1⟩
        rcases hmono2 x hx1 with ⟨hx2, hd2⟩
        exact ⟨hx2, Nat.le_trans hd2 hd1⟩
      · intro w2 hw2 htrav
        rcases List.mem_cons.mp hw2 with he | he
        · subst he
          rcases hw1 htrav with ⟨hk, hd⟩
          rcases hmono2 w2 hk with ⟨hk2, hd2⟩
          exact ⟨hk2, Nat.le_trans hd2 hd⟩
        · exact hws2 w2 he htrav
      · have := hlen2
        rw [List.length_cons]
        omega

/-- Closed coordinates fit inside the finite grid universe. -/
theorem closed_length_le {g : AppGrid} {h : Coord → Nat} {s t : Coord}
    {q : List (Coord × Nat)} {G : Dmap} {C : List Coord}
    (inv : PqInv g h s t q G C) : C.length ≤ (allPairs g).length := by
  apply (List.Nodup.subperm inv.closedNodup ?_).length_le
  intro u hu
  rcases inv.closedExact u hu with ⟨hk, _⟩
  rcases dmFind_dep hk with ⟨po, hfind⟩
  exact traversable_mem_allPairs (inv.pwf u (dep G u) po hfind).1

/-- Expanding the popped head restores the between-expansions invariant with
the head freshly closed. -/
theorem pq_expand {g : AppGrid} {h : Coord → Nat} {s t v : Coord} {gv : Nat}
    {qs : List (Coord × Nat)} {G : Dmap} {C : List Coord}
    (inv : PqInv g h s t ((v, gv) :: qs) G C)
    (hcons : ∀ a b, Adj a b → h a ≤ h b + 1)
    (hvt : v ≠ t) (hvC : v ∉ C) :
    PqInv g h s t ((nbrs v).foldl (relax g h v gv) (qs, G)).1
      ((nbrs v).foldl (relax g h v gv) (qs, G)).2 (C ++ [v]) ∧
    ((nbrs v).foldl (relax g h v gv) (qs, G)).1.length ≤ qs.length + 4 := by
  rcases pq_head_exact inv hcons hvC with ⟨hgv1, hgv2⟩
  have hgv : gv = sdist g s v := by omega
  have hvkeys : v ∈ dmKeys G := (inv.entryDisc (v, gv) (List.mem_cons_self _ _)).1
  have hrlx : RlxInv g h s t v gv C qs G := by
    refine ⟨inv.nodupKeys, inv.source, inv.pwf, ?_, ?_, ?_, ?_, ?_, ?_, ?_⟩
    · intro x d p hfind
      exact List.mem_append.mpr (Or.inl (inv.parentIn x d p hfind))
    · intro e he
      exact inv.entryDisc e (List.mem_cons_of_mem _ he)
    · intro x hx hxc
      have hxC : x ∉ C := fun h2 => hxc (List.mem_append.mpr (Or.inl h2))
      have hxv : x ≠ v := by
        intro he
        exact hxc (List.mem_append.mpr (Or.inr (by simp [he])))
      rcases List.mem_cons.mp (inv.bestEntry x hx hxC) with he | he
      · exact absurd ((Prod.mk.injEq _ _ _ _).mp he).1 hxv
      · exact he
    · exact (List.pairwise_cons.mp inv.sortedQ).2
    · intro u hu
      rcases List.mem_append.mp hu with hu2 | hu2
      · exact inv.closedExact u hu2
      · simp at hu2
        subst hu2
        exact ⟨hvkeys, hgv2⟩
    · exact inv.closedNbrs
    · rcases dmFind_dep hvkeys with ⟨pv, hfind⟩
      exact ⟨pv, by rw [hgv1]; exact hfind⟩
  rcases relax_fold hgv (nbrs v) qs G hrlx (fun w hw => mem_nbrs.mp hw) with
    ⟨hinv2, _, hnb, hlen⟩
  constructor
  · refine ⟨hinv2.nodupKeys, hinv2.source, hinv2.pwf, hinv2.parentIn,
      hinv2.entryDisc, hinv2.bestEntry, hinv2.sortedQ, hinv2.closedExact,
      ?_, ?_, ?_⟩
    · intro u hu w hadj htrav
      rcases List.mem_append.mp hu with hu2 | hu2
      · exact hinv2.closedNbrsOld u hu2 w hadj htrav
      · simp at hu2
        subst hu2
        rcases hnb w (mem_nbrs.mpr hadj) htrav with ⟨hk, hd⟩
        refine ⟨hk, ?_⟩
        rw [← hgv]
        exact hd
    · intro hin
      rcases List.mem_append.mp hin with h2 | h2
      · exact inv.goalOpen h2
      · simp at h2
        exact hvt h2.symm
    · refine List.Nodup.append inv.closedNodup (by simp) ?_
      intro a ha hb
      simp at hb
      subst hb
      exact hvC ha
  · have h4 := nbrs_length_le v
    omega

/-- The priority loop, started in an invariant state with enough fuel, pops
the reachable goal with its exact shortest distance recorded. -/
theorem pqLoop_finds {g : AppGrid} {h : Coord → Nat} {s t : Coord}
    (hreach : Reachable g s t)
    (hcons : ∀ a b, Adj a b → h a ≤ h b + 1) :
    ∀ (fuel : Nat) (q : List (Coord × Nat)) (G : Dmap) (C vo : List Coord),
      PqInv g h s t q G C →
      q.length + 5 * ((allPairs g).length - C.length) < fuel →
      ∃ G' vo', pqLoop g h t fuel q G C vo = some (true, G', vo') ∧
        PWF g s G' ∧ ∃ po, dmFind G' t = some (sdist g s t, po) := by
  intro fuel
  induction fuel with
  | zero => intro q G C vo _ hm; omega
  | succ n ih =>
      intro q G C vo inv hm
      cases q with
      | nil =>
          exfalso
          rcases pq_frontier_bound inv hcons (sdist g s t) t hreach rfl inv.goalOpen
            with ⟨e, he, _⟩
          simp at he
      | cons e qs =>
          rcases e with ⟨v, gv⟩
          rw [pqLoop_cons]
          by_cases hvt : v = t
          · rw [if_pos (show ((v, gv) : Coord × Nat).1 = t from hvt)]
            subst hvt
            rcases pq_head_exact inv hcons inv.goalOpen with ⟨hgv1, hgv2⟩
            have hvkeys := (inv.entryDisc (v, gv) (List.mem_cons_self _ _)).1
            rcases dmFind_dep hvkeys with ⟨po, hfind⟩
            exact ⟨G, vo ++ [v], rfl, inv.pwf, po, by rw [← hgv2]; exact hfind⟩
          · rw [if_neg (show ¬((v, gv) : Coord × Nat).1 = t from hvt)]
            by_cases hvC : v ∈ C
            · rw [if_pos (show ((v, gv) : Coord × Nat).1 ∈ C from hvC)]
              have inv' : PqInv g h s t qs G C := by
                refine ⟨inv.nodupKeys, inv.source, inv.pwf, inv.parentIn, ?_, ?_,
                  (List.pairwise_cons.mp inv.sortedQ).2, inv.closedExact,
                  inv.closedNbrs, inv.goalOpen, inv.closedNodup⟩
                · intro e2 he2
                  exact inv.entryDisc e2 (List.mem_cons_of_mem _ he2)
                · intro x hx hxc
                  rcases List.mem_cons.mp (inv.bestEntry x hx hxc) with he2 | he2
                  · have : x = v := ((Prod.mk.injEq _ _ _ _).mp he2).1
                    subst this
                    exact absurd hvC hxc
                  · exact he2
              apply ih qs G C vo inv'
              rw [List.length_cons] at hm
              omega
            · rw [if_neg (show ¬((v, gv) : Coord × Nat).1 ∈ C from hvC)]
              rcases pq_expand inv hcons hvt hvC with ⟨inv', hlen⟩
              apply ih _ _ _ _ inv'
              have hCle := closed_length_le inv'
              rw [List.length_append] at hCle
              simp at hCle
              rw [List.length_append, List.length_cons] at *
              simp at *
              omega

/-- Correctness of the shared priority search: for a consistent heuristic
and a reachable instance, the returned path is a walk from start to goal of
shortest length. -/
theorem pqSearch_optimal {g : AppGrid} {h : Coord → Nat} {s t : Coord}
    (hcons : ∀ a b, Adj a b → h a ≤ h b + 1)
    (hreach : Reachable g s t) :
    WalkFrom g s t (pqSearch g h s t).path ∧
      (pqSearch g h s t).path.length = sdist g s t + 1 := by
  have hs := (reachable_traversable hreach).1
  have inv0 : PqInv g h s t [(s, 0)] [(s, (0, none))] [] := by
    refine ⟨by simp [dmKeys], by simp [dmFind], ?_, ?_, ?_, ?_, ?_, ?_, ?_, ?_, ?_⟩
    · intro x d po hfind
      unfold dmFind at hfind
      by_cases hx : s = x
      · rw [if_pos hx] at hfind
        have h1 : d = 0 ∧ po = none := by
          have := Option.some.inj hfind
          exact ⟨((Prod.mk.injEq _ _ _ _).mp this).1.symm,
            ((Prod.mk.injEq _ _ _ _).mp this).2.symm⟩
        subst hx
        refine ⟨hs, fun _ => ⟨rfl, h1.1⟩, ?_⟩
        intro p hp
        rw [h1.2] at hp
        cases hp
      · rw [if_neg hx] at hfind
        cases hfind
    · intro x d p hfind
      unfold dmFind at hfind
      by_cases hx : s = x
      · rw [if_pos hx] at hfind
        have := ((Prod.mk.injEq _ _ _ _).mp (Option.some.inj hfind)).2
        cases this
      · rw [if_neg hx] at hfind
        cases hfind
    · intro e he
      simp at he
      subst he
      refine ⟨by simp [dmKeys], ?_⟩
      show dep [(s, (0, none))] s ≤ 0
      unfold dep dmFind
      simp
    · intro x hx hxc
      simp [dmKeys] at hx
      subst hx
      have : dep [(x, ((0 : Nat), (none : Option Coord)))] x = 0 := by
        unfold dep dmFind
        simp
      rw [this]
      simp
    · simp
    · intro u hu
      simp at hu
    · intro u hu
      simp at hu
    · simp
    · simp
  have hBpos : 1 ≤ (allPairs g).length := by
    have := traversable_mem_allPairs hs
    exact List.length_pos.mpr (List.ne_nil_of_mem this)
  have hm : ([((s : Coord), (0 : Nat))]).length +
      5 * ((allPairs g).length - ([] : List Coord).length) <
        5 * (allPairs g).length + 2 := by
    simp
    omega
  rcases pqLoop_finds hreach hcons (5 * (allPairs g).length + 2)
      [(s, 0)] [(s, (0, none))] [] [] inv0 hm with ⟨G', vo', hrun, hpwf, po, hfind⟩
  have hpath : (pqSearch g h s t).path = chainPath G' (sdist g s t) t := by
    unfold pqSearch
    rw [hrun]
    show (match dmFind G' t with
      | some (dt, _) => chainPath G' dt t
      | none => []) = chainPath G' (sdist g s t) t
    rw [hfind]
  rw [hpath]
  exact chainPath_walk hpwf (sdist g s t) t po hfind

/-- Dijkstra (spec 4.5) returns a shortest path on reachable instances. -/
theorem dijkstra_optimal {g : AppGrid} {s t : Coord} (hreach : Reachable g s t) :
    WalkFrom g s t (dijkstra g s t).path ∧
      (dijkstra g s t).path.length = sdist g s t + 1 :=
  pqSearch_optimal (fun _ _ _ => by omega) hreach

/-- A* with the Manhattan heuristic (spec 4.6) returns a shortest path on
reachable instances. -/
theorem astar_optimal {g : AppGrid} {s t : Coord} (hreach : Reachable g s t) :
    WalkFrom g s t (astar g s t).path ∧
      (astar g s t).path.length = sdist g s t + 1 :=
  pqSearch_optimal (fun a b hab => manhattan_consistent hab) hreach

/-! ## Claim C1 theorem and the C6 counterexample -/

/-- C1: for every grid with both a start and a goal cell set and the goal
reachable from the start, the paths returned by `bfs`, `dijkstra` and
`astar` each have edge count equal to the true shortest-path edge count
(the least number of edges over all traversable 4-connected walks). -/
theorem claim_C1_shortest_paths (g : AppGrid) (s t : Coord)
    (hs : findCell g Tag.start = some s) (ht : findCell g Tag.goal = some t)
    (hreach : Reachable g s t) :
    (bfs g s t).path.length - 1 = sdist g s t ∧
    (dijkstra g s t).path.length - 1 = sdist g s t ∧
    (astar g s t).path.length - 1 = sdist g s t := by
  have h1 := (bfs_optimal hreach).2
  have h2 := (dijkstra_optimal hreach).2
  have h3 := (astar_optimal hreach).2
  omega

/-- Witness for C1 on a concrete grid: start (0,0), goal (0,1), one edge. -/
theorem claim_C1_witness :
    (bfs gridSG (0, 0) (0, 1)).path.length - 1 = sdist gridSG (0, 0) (0, 1) ∧
    (dijkstra gridSG (0, 0) (0, 1)).path.length - 1 = sdist gridSG (0, 0) (0, 1) ∧
    (astar gridSG (0, 0) (0, 1)).path.length - 1 = sdist gridSG (0, 0) (0, 1) :=
  claim_C1_shortest_paths gridSG (0, 0) (0, 1) (by decide) (by decide)
    ⟨[(0, 0), (0, 1)], by decide⟩

/-- The spec's 5x5 detour scenario embedded in the 10x10 client grid: start
(0,0), goal (0,4), obstacles (0,1), (0,2), (0,3). -/
def detourGrid : AppGrid :=
  handleCellClick Tool.obstacle 0 3
    (handleCellClick Tool.obstacle 0 2
      (handleCellClick Tool.obstacle 0 1
        (handleCellClick Tool.goal 0 4
          (handleCellClick Tool.start 0 0 createEmptyGrid))))

/-- C6 counterexample: the claim states the persisted `path_length` equals
the edge count (one less than the coordinate count; 6 in the spec's detour
scenario).  Running the actual modelled BFS on that scenario through
`simulateAlgo` persists `path_length = 7` - the coordinate count - while the
edge count of the returned path is 6. -/
theorem claim_C6_detour_counterexample :
    (recordSentBy (simulateAlgo false AlgoName.BFS bfs "0.00" detourGrid)).map
        RunRecord.path_length = some 7 ∧
    (bfs detourGrid (0, 0) (0, 4)).path.length - 1 = 6 ∧
    (7 : Nat) ≠ 6 := by
  refine ⟨by decide, by decide, by decide⟩

end NavX
